import Mathlib

/-!
Shallow embedding of the temporal subsystem of the rust-transformer
repository (memory bank, temporal attention, temporal encoder), together
with theorems settling the frozen claims about it.

Modelling conventions:
* `f64` values are modelled as real numbers (`ℝ`).  `ln` is `Real.log`:
  Rust's `(0.0_f64).ln()` is `-inf` and is clamped by `.max(0.0)` to `0`,
  which agrees with `max (Real.log 0) 0 = 0` since `Real.log 0 = 0`.
* `DMatrix<f64>` is a structure carrying its dimensions and a total entry
  function that is `0` outside the stored range, so that matrices built by
  the translated operations are equal iff they have the same shape and the
  same in-range entries.  Entrywise binary operations take their shape from
  the first operand; in Rust a shape mismatch there panics, so the two
  agree on all defined (non-panicking) executions.
* `usize` is `ℕ`; `current_timestamp - entry.timestamp` is truncated
  subtraction, which agrees with Rust on all states where timestamps do
  not exceed the current timestamp (established as an invariant below).
* `Result<T>` is `Except String T`, with the source's error messages.
* Rust's `sort_by` is a stable sort; a stable sort keyed on a value is
  exactly sorting by the lexicographic order on (key, original index),
  which is how the two `sort_by` calls on `(index, score)` pairs are
  rendered (`List.insertionSort`, itself stable, with that order).
* `&mut self` methods become state-passing functions returning the new
  bank/encoder; `&self` methods return the input state unchanged.
-/

attribute [local instance] Classical.propDecidable

noncomputable section

/-- Dense real matrix with dynamic shape, modelling `nalgebra::DMatrix<f64>`. -/
structure Mat where
  rows : ℕ
  cols : ℕ
  entry : ℕ → ℕ → ℝ

/-- Matrices built by the library: entries vanish outside the shape. -/
def Mat.ofFn (r c : ℕ) (f : ℕ → ℕ → ℝ) : Mat :=
  ⟨r, c, fun i j => if i < r ∧ j < c then f i j else 0⟩

/-- `DMatrix::zeros`. -/
def Mat.zeros (r c : ℕ) : Mat :=
  Mat.ofFn r c fun _ _ => 0

/-- `DMatrix::shape`. -/
def Mat.shape (a : Mat) : ℕ × ℕ :=
  (a.rows, a.cols)

/-- `DMatrix::map` (entrywise). -/
def Mat.map (a : Mat) (f : ℝ → ℝ) : Mat :=
  Mat.ofFn a.rows a.cols fun i j => f (a.entry i j)

/-- Entrywise addition (`+` / `+=` on `DMatrix`; shapes agree on all
non-panicking Rust executions, the shape is taken from the left operand). -/
def Mat.add (a b : Mat) : Mat :=
  Mat.ofFn a.rows a.cols fun i j => a.entry i j + b.entry i j

/-- Matrix product (`*` on `DMatrix`). -/
def Mat.mul (a b : Mat) : Mat :=
  Mat.ofFn a.rows b.cols fun i j => ∑ k ∈ Finset.range a.cols, a.entry i k * b.entry k j

/-- `DMatrix::transpose`. -/
def Mat.transpose (a : Mat) : Mat :=
  Mat.ofFn a.cols a.rows fun i j => a.entry j i

/-- `DMatrix::dot`: componentwise dot product (shapes agree on all
non-panicking executions). -/
def Mat.dot (a b : Mat) : ℝ :=
  ∑ i ∈ Finset.range a.rows, ∑ j ∈ Finset.range a.cols, a.entry i j * b.entry i j

/-- `DMatrix::norm`: Frobenius norm, the square root of the sum of squares. -/
def Mat.norm (a : Mat) : ℝ :=
  Real.sqrt (a.dot a)

/-- Boolean mask matrix (`DMatrix<bool>`); used opaquely by the encoder. -/
structure Mask where
  rows : ℕ
  cols : ℕ
  entry : ℕ → ℕ → Bool

/-- `MemoryConfig` from `src/temporal/memory_bank.rs`. -/
structure MemoryConfig where
  max_memory_size : ℕ
  memory_decay_factor : ℝ
  retention_threshold : ℝ
  compression_ratio : ℝ

/-- `MemoryConfig::default`. -/
def MemoryConfig.default : MemoryConfig :=
  ⟨1000, 0.95, 0.1, 0.5⟩

/-- `MemoryEntry` from `src/temporal/memory_bank.rs`. -/
structure MemoryEntry where
  representation : Mat
  timestamp : ℕ
  importance_score : ℝ
  access_count : ℕ

/-- `MemoryEntry::new`. -/
def MemoryEntry.new (representation : Mat) (timestamp : ℕ) : MemoryEntry :=
  ⟨representation, timestamp, 1, 0⟩

/-- `MemoryEntry::update_importance`.  `decay_factor.powi((ct - ts) as i32)`
becomes `decay ^ (ct - ts)` over `ℕ`-subtraction; `ln(access).max(0.0)` becomes
`max (Real.log access) 0` (see the header on `ln 0`). -/
def MemoryEntry.update_importance (e : MemoryEntry) (decay_factor : ℝ)
    (current_timestamp : ℕ) : MemoryEntry :=
  let time_decay := decay_factor ^ (current_timestamp - e.timestamp)
  let access_boost := max (Real.log e.access_count) 0 * 0.1
  { e with
    importance_score := e.importance_score * time_decay + access_boost
    access_count := e.access_count + 1 }

/-- `MemoryBank` from `src/temporal/memory_bank.rs` (the `VecDeque` is a list,
front = oldest). -/
structure MemoryBank where
  memories : List MemoryEntry
  config : MemoryConfig
  current_timestamp : ℕ
  compressed_memories : List Mat

/-- `MemoryBank::new`. -/
def MemoryBank.new (config : MemoryConfig) : MemoryBank :=
  ⟨[], config, 0, []⟩

/-- `MemoryBank::size`. -/
def MemoryBank.size (b : MemoryBank) : ℕ :=
  b.memories.length

/-- `MemoryBank::clear`. -/
def MemoryBank.clear (b : MemoryBank) : MemoryBank :=
  { b with memories := [], compressed_memories := [], current_timestamp := 0 }

/-- The comparator of `evict_memories`' first `sort_by` (ascending importance),
as the stable-sort order: lexicographic on (importance, original index). -/
def evictLe (p q : ℕ × ℝ) : Prop :=
  p.2 < q.2 ∨ (p.2 = q.2 ∧ p.1 ≤ q.1)

/-- The comparator of `retrieve`'s `sort_by` (descending similarity), as the
stable-sort order: descending on the score, original index on ties. -/
def retrieveLe (p q : ℕ × ℝ) : Prop :=
  q.2 < p.2 ∨ (p.2 = q.2 ∧ p.1 ≤ q.1)

/-- The comparator of `evict_memories`' second `sort_by` (descending index). -/
def descLe (i j : ℕ) : Prop :=
  j ≤ i

instance : IsTotal (ℕ × ℝ) evictLe :=
  ⟨by
    intro p q
    rcases lt_trichotomy p.2 q.2 with h | h | h
    · exact Or.inl (Or.inl h)
    · rcases le_total p.1 q.1 with h1 | h1
      · exact Or.inl (Or.inr ⟨h, h1⟩)
      · exact Or.inr (Or.inr ⟨h.symm, h1⟩)
    · exact Or.inr (Or.inl h)⟩

instance : IsTrans (ℕ × ℝ) evictLe :=
  ⟨by
    rintro p q r (h | ⟨h, h1⟩) (h2 | ⟨h2, h3⟩)
    · exact Or.inl (h.trans h2)
    · exact Or.inl (h2 ▸ h)
    · exact Or.inl (h ▸ h2)
    · exact Or.inr ⟨h.trans h2, h1.trans h3⟩⟩

instance : IsTotal (ℕ × ℝ) retrieveLe :=
  ⟨by
    intro p q
    rcases lt_trichotomy p.2 q.2 with h | h | h
    · exact Or.inr (Or.inl h)
    · rcases le_total p.1 q.1 with h1 | h1
      · exact Or.inl (Or.inr ⟨h, h1⟩)
      · exact Or.inr (Or.inr ⟨h.symm, h1⟩)
    · exact Or.inl (Or.inl h)⟩

instance : IsTrans (ℕ × ℝ) retrieveLe :=
  ⟨by
    rintro p q r (h | ⟨h, h1⟩) (h2 | ⟨h2, h3⟩)
    · exact Or.inl (h2.trans h)
    · exact Or.inl (h2 ▸ h)
    · exact Or.inl (h ▸ h2)
    · exact Or.inr ⟨h.trans h2, h1.trans h3⟩⟩

instance : IsTotal ℕ descLe :=
  ⟨fun i j => (le_total j i).imp id id⟩

instance : IsTrans ℕ descLe :=
  ⟨fun _ _ _ h h2 => le_trans h2 h⟩

/-- `update_all_importance_scores` applied inside `evict_memories`: every live
entry is refreshed at the bank's current timestamp. -/
def MemoryBank.evictUpdated (b : MemoryBank) : List MemoryEntry :=
  b.memories.map fun m =>
    m.update_importance b.config.memory_decay_factor b.current_timestamp

/-- `num_to_remove` in `evict_memories`: `self.memories.len() - max_memory_size + 1`. -/
def MemoryBank.evictNum (b : MemoryBank) : ℕ :=
  b.memories.length - b.config.max_memory_size + 1

/-- `indices_to_remove` in `evict_memories` (before the descending re-sort):
the indices of the `num_to_remove` entries that come first when the
`(index, importance)` pairs are stably sorted by ascending importance. -/
def MemoryBank.evictIndices (b : MemoryBank) : List ℕ :=
  ((List.insertionSort evictLe
      ((b.evictUpdated.map MemoryEntry.importance_score).enum)).take b.evictNum).map
    Prod.fst

/-- `MemoryBank::evict_memories`: refresh all importance scores, pick the
`num_to_remove` lowest-importance indices, sort them descending and remove
them one by one.  (The returned `Result` is always `Ok`.) -/
def MemoryBank.evict_memories (b : MemoryBank) : MemoryBank :=
  { b with
    memories :=
      (List.insertionSort descLe b.evictIndices).foldl
        (fun l i => l.eraseIdx i) b.evictUpdated }

/-- The state of `MemoryBank::store` after bumping the timestamp and pushing
the new entry, before the capacity check. -/
def MemoryBank.storePushed (b : MemoryBank) (representation : Mat) : MemoryBank :=
  { b with
    current_timestamp := b.current_timestamp + 1
    memories :=
      b.memories ++ [MemoryEntry.new representation (b.current_timestamp + 1)] }

/-- `MemoryBank::store`: bump the timestamp, append a fresh entry, evict when
the live count exceeds capacity.  (The returned `Result` is always `Ok`.) -/
def MemoryBank.store (b : MemoryBank) (representation : Mat) : MemoryBank :=
  if (b.storePushed representation).memories.length >
      (b.storePushed representation).config.max_memory_size then
    (b.storePushed representation).evict_memories
  else b.storePushed representation

/-- A sequence of `store` calls (left to right). -/
def MemoryBank.storeAll (b : MemoryBank) (ms : List Mat) : MemoryBank :=
  ms.foldl MemoryBank.store b

/-- `MemoryBank::cosine_similarity` (a `&self` method that does not read
`self`). -/
def MemoryBank.cosine_similarity (a b : Mat) : Except String ℝ :=
  if a.shape ≠ b.shape then
    .error "Matrix shapes must match for cosine similarity"
  else if a.norm = 0 ∨ b.norm = 0 then .ok 0
  else .ok (a.dot b / (a.norm * b.norm))

/-- `MemoryBank::compute_similarities`: the cosine similarity of the query
against every live entry, failing at the first shape mismatch. -/
def MemoryBank.computeSimilarities (query : Mat) : List MemoryEntry → Except String (List ℝ)
  | [] => .ok []
  | m :: rest =>
    match MemoryBank.cosine_similarity query m.representation with
    | .error e => .error e
    | .ok s =>
      match MemoryBank.computeSimilarities query rest with
      | .error e => .error e
      | .ok ss => .ok (s :: ss)

/-- The body of `retrieve`'s selection loop: `get_mut(idx)`, refresh the
entry's importance, and push (a clone of) its representation. -/
def retrieveStep (decay : ℝ) (ct : ℕ) (acc : List MemoryEntry × List Mat) (idx : ℕ) :
    List MemoryEntry × List Mat :=
  match acc.1[idx]? with
  | some m =>
    let m1 := m.update_importance decay ct
    (acc.1.set idx m1, acc.2 ++ [m1.representation])
  | none => acc

/-- The indices selected by `retrieve`: the first `k` of the `(index,
similarity)` pairs stably sorted by descending similarity. -/
def retrieveSelected (sims : List ℝ) (k : ℕ) : List ℕ :=
  ((List.insertionSort retrieveLe sims.enum).take k).map Prod.fst

/-- `MemoryBank::retrieve`: rank all live entries by cosine similarity to the
query, take the top `k`, refresh each selected entry (side effect) and return
their representations in descending-similarity order. -/
def MemoryBank.retrieve (b : MemoryBank) (query : Mat) (k : ℕ) :
    Except String (List Mat) × MemoryBank :=
  match MemoryBank.computeSimilarities query b.memories with
  | .error e => (.error e, b)
  | .ok sims =>
    let res :=
      (retrieveSelected sims k).foldl
        (retrieveStep b.config.memory_decay_factor b.current_timestamp)
        (b.memories, [])
    (.ok res.2, { b with memories := res.1 })

/-- `MemoryBank::get_temporal_context`: all live entries whose age is within
`max_distance` and whose importance exceeds the retention threshold, most
recent first.  A `&self` method: the bank is returned unchanged, and the
`query` argument is not read. -/
def MemoryBank.get_temporal_context (b : MemoryBank) (query : Mat) (max_distance : ℕ) :
    Except String (List Mat) × MemoryBank :=
  let current_time := b.current_timestamp
  (.ok
    ((b.memories.reverse.filter fun m =>
        current_time - m.timestamp ≤ max_distance ∧
          m.importance_score > b.config.retention_threshold).map
      MemoryEntry.representation),
    b)

/-- The accumulation loop of `compress_memories`: starting from a zero matrix
of the first entry's shape and total importance `0.0`, add each entry's
representation scaled by its importance and accumulate the total importance. -/
def compressFold (fs : ℕ × ℕ) (ms : List MemoryEntry) : Mat × ℝ :=
  ms.foldl
    (fun (acc : Mat × ℝ) m =>
      (acc.1.add (m.representation.map fun x => x * m.importance_score),
       acc.2 + m.importance_score))
    (Mat.zeros fs.1 fs.2, 0)

/-- `MemoryBank::compress_memories`: the importance-weighted sum of the given
entries, divided by the total importance when that is positive. -/
def MemoryBank.compress_memories : List MemoryEntry → Except String Mat
  | [] => .error "Cannot compress empty memory set"
  | m0 :: rest =>
    if (compressFold m0.representation.shape (m0 :: rest)).2 > 0 then
      .ok ((compressFold m0.representation.shape (m0 :: rest)).1.map
        fun x => x / (compressFold m0.representation.shape (m0 :: rest)).2)
    else .ok (compressFold m0.representation.shape (m0 :: rest)).1

/-- `compression_threshold` in `compress_old_memories`:
`(max_memory_size as f64 * compression_ratio) as usize` (truncation toward
zero, negative values to `0`). -/
def MemoryBank.compressionThreshold (b : MemoryBank) : ℕ :=
  (⌊(b.config.max_memory_size : ℝ) * b.config.compression_ratio⌋).toNat

/-- `MemoryBank::compress_old_memories`: when the live count exceeds the
compression threshold, drain that many oldest entries, combine them into one
compressed vector and append it to the archive. -/
def MemoryBank.compress_old_memories (b : MemoryBank) :
    Except String Unit × MemoryBank :=
  if b.memories.length ≤ b.compressionThreshold then (.ok (), b)
  else if (b.memories.take b.compressionThreshold).isEmpty then
    (.ok (), { b with memories := b.memories.drop b.compressionThreshold })
  else
    match MemoryBank.compress_memories (b.memories.take b.compressionThreshold) with
    | .error e => (.error e, { b with memories := b.memories.drop b.compressionThreshold })
    | .ok compressed =>
      (.ok (),
       { b with
         memories := b.memories.drop b.compressionThreshold
         compressed_memories := b.compressed_memories ++ [compressed] })

/-- Row maximum used by the softmax of `ScaledDotProductAttention` (the value
is irrelevant when the row is empty, in which case the softmax fails). -/
def rowMax (a : Mat) (i : ℕ) : ℝ :=
  ((List.range a.cols).map (a.entry i)).foldl max (a.entry i 0)

/-- Denominator of row `i` of the softmax: the sum of shifted exponentials. -/
def rowSumExp (a : Mat) (i : ℕ) : ℝ :=
  ∑ j ∈ Finset.range a.cols, Real.exp (a.entry i j - rowMax a i)

/-- `ScaledDotProductAttention::softmax` (row-wise, max-shifted), failing when
some row's denominator is zero.  Call sites in the temporal subsystem pass no
mask, so the embedding covers the `None`-mask path. -/
def sdpaSoftmax (scores : Mat) : Except String Mat :=
  if ∃ i, i < scores.rows ∧ rowSumExp scores i = 0 then
    .error "Softmax denominator is zero"
  else
    .ok
      (Mat.ofFn scores.rows scores.cols fun i j =>
        Real.exp (scores.entry i j - rowMax scores i) / rowSumExp scores i)

/-- `ScaledDotProductAttention::forward` with `mask = None` (the only form the
temporal subsystem uses): scale the score matrix by `1/sqrt(d_k)`, softmax it,
multiply by the values. -/
def sdpaForward (query key value : Mat) : Except String Mat :=
  match sdpaSoftmax ((query.mul key.transpose).map fun x =>
      x * (1 / Real.sqrt (query.cols : ℝ))) with
  | .error e => .error e
  | .ok attention_weights => .ok (attention_weights.mul value)

/-- `TemporalAttention` from `src/temporal/temporal_attention.rs` (the
`ScaledDotProductAttention` field holds only an unused dropout rate; the
randomly initialized `temporal_weights` matrix is carried but never read by
`forward`/`cross_temporal_attention`). -/
structure TemporalAttention where
  dropout_rate : ℝ
  temporal_weights : Mat
  decay_factor : ℝ
  max_temporal_distance : ℕ

/-- `TemporalAttention::compute_temporal_weight`. -/
def TemporalAttention.computeTemporalWeight (ta : TemporalAttention) (distance : ℕ) : ℝ :=
  if distance = 0 then 1 else ta.decay_factor ^ distance

/-- The loop of `TemporalAttention::forward` over the zipped
(key, value, distance) triples: skip triples beyond the distance cutoff,
run base attention on the kept ones and scale each output by its temporal
weight, failing at the first failing attention call. -/
def TemporalAttention.taLoop (ta : TemporalAttention) (query : Mat) :
    List ((Mat × Mat) × ℕ) → Except String (List Mat)
  | [] => .ok []
  | ((key, value), distance) :: rest =>
    if distance > ta.max_temporal_distance then ta.taLoop query rest
    else
      match sdpaForward query key value with
      | .error e => .error e
      | .ok attention_output =>
        match ta.taLoop query rest with
        | .error e => .error e
        | .ok outs =>
          .ok ((attention_output.map fun x => x * ta.computeTemporalWeight distance) :: outs)

/-- `TemporalAttention::combine_temporal_outputs`: entrywise mean of the
weighted outputs. -/
def TemporalAttention.combineTemporalOutputs (outputs : List Mat) : Except String Mat :=
  match outputs with
  | [] => .error "No temporal outputs to combine"
  | o :: rest =>
    .ok ((rest.foldl Mat.add o).map fun x => x / (outputs.length : ℝ))

/-- The kept triples of a `TemporalAttention::forward` call: those whose
distance does not exceed `max_temporal_distance`. -/
def TemporalAttention.keptTriples (ta : TemporalAttention) (ks vs : List Mat)
    (ds : List ℕ) : List ((Mat × Mat) × ℕ) :=
  ((ks.zip vs).zip ds).filter fun t => decide (¬ t.2 > ta.max_temporal_distance)

/-- `TemporalAttention::forward`. -/
def TemporalAttention.forward (ta : TemporalAttention) (current_query : Mat)
    (temporal_keys temporal_values : List Mat) (temporal_distances : List ℕ) :
    Except String Mat :=
  if temporal_keys.length ≠ temporal_values.length ∨
      temporal_keys.length ≠ temporal_distances.length then
    .error "Temporal keys, values, and distances must have the same length"
  else
    match ta.taLoop current_query ((temporal_keys.zip temporal_values).zip temporal_distances) with
    | .error e => .error e
    | .ok weighted_outputs =>
      if weighted_outputs.isEmpty then
        .ok (Mat.zeros current_query.rows current_query.cols)
      else
        TemporalAttention.combineTemporalOutputs weighted_outputs

/-- `TemporalAttention::cross_temporal_attention`: a direct pass-through to the
base attention primitive; `temporal_positions` is unused. -/
def TemporalAttention.cross_temporal_attention (ta : TemporalAttention)
    (query_sequence key_sequence value_sequence : Mat)
    (temporal_positions : List ℕ) : Except String Mat :=
  sdpaForward query_sequence key_sequence value_sequence

/-- `LayerNorm` from `src/layers/layer_norm.rs`. -/
structure LayerNorm where
  gamma : Mat
  beta : Mat
  epsilon : ℝ

/-- Row mean used by `LayerNorm::forward`. -/
def lnMean (input : Mat) (i : ℕ) : ℝ :=
  (∑ j ∈ Finset.range input.cols, input.entry i j) / (input.cols : ℝ)

/-- Row variance used by `LayerNorm::forward`. -/
def lnVar (input : Mat) (i : ℕ) : ℝ :=
  (∑ j ∈ Finset.range input.cols, (input.entry i j - lnMean input i) ^ 2) / (input.cols : ℝ)

/-- `LayerNorm::forward` (never fails; the `Result` is always `Ok`). -/
def LayerNorm.forward (ln : LayerNorm) (input : Mat) : Except String Mat :=
  .ok
    (Mat.ofFn input.rows input.cols fun i j =>
      ln.gamma.entry 0 j * ((input.entry i j - lnMean input i) /
        Real.sqrt (lnVar input i + ln.epsilon)) + ln.beta.entry 0 j)

/-- `TemporalEncoder` from `src/temporal/temporal_encoder.rs`.  The base
`Encoder` is the external `SequenceEncoder` collaborator and is modelled as an
opaque function field. -/
structure TemporalEncoder where
  base_encoder : List ℕ → Option Mask → Except String Mat
  temporal_attention : TemporalAttention
  memory_bank : MemoryBank
  temporal_layer_norm : LayerNorm
  memory_integration_weights : Mat
  temporal_decay_factor : ℝ

/-- `TemporalEncoder::global_average_pool`: column means, as a 1-row matrix. -/
def globalAveragePool (input : Mat) : Mat :=
  Mat.ofFn 1 input.cols fun _ j =>
    (∑ i ∈ Finset.range input.rows, input.entry i j) / (input.rows : ℝ)

/-- `TemporalEncoder::store_in_memory`: pool and store. -/
def TemporalEncoder.store_in_memory (te : TemporalEncoder) (representation : Mat) :
    TemporalEncoder :=
  { te with memory_bank := te.memory_bank.store (globalAveragePool representation) }

/-- `TemporalEncoder::combine_previous_states`: row-stack the states. -/
def blockEntry : List Mat → ℕ → ℕ → ℝ
  | [], _, _ => 0
  | s :: rest, i, j => if i < s.rows then s.entry i j else blockEntry rest (i - s.rows) j

/-- `TemporalEncoder::combine_previous_states` (fails only on an empty list). -/
def combinePreviousStates : List Mat → Except String Mat
  | [] => .error "No previous states to combine"
  | s :: rest =>
    .ok
      (Mat.ofFn (((s :: rest).map Mat.rows).sum) s.cols
        (blockEntry (s :: rest)))

/-- `TemporalEncoder::compute_temporal_context` (a `&self` method). -/
def TemporalEncoder.compute_temporal_context (te : TemporalEncoder)
    (current_output : Mat) (previous_states : List Mat)
    (temporal_positions : List ℕ) : Except String Mat :=
  if previous_states.isEmpty then
    .ok (Mat.zeros current_output.rows current_output.cols)
  else
    match combinePreviousStates previous_states with
    | .error e => .error e
    | .ok combined_states =>
      te.temporal_attention.cross_temporal_attention current_output combined_states
        combined_states (List.range current_output.rows)

/-- `TemporalEncoder::retrieve_memory_context` (mutates the bank through
`retrieve`). -/
def TemporalEncoder.retrieve_memory_context (te : TemporalEncoder) (query : Mat) :
    Except String Mat × TemporalEncoder :=
  match (te.memory_bank.retrieve query 5).1 with
  | .error e =>
    (.error e, { te with memory_bank := (te.memory_bank.retrieve query 5).2 })
  | .ok retrieved_memories =>
    if retrieved_memories.isEmpty then
      (.ok (Mat.zeros query.rows query.cols),
       { te with memory_bank := (te.memory_bank.retrieve query 5).2 })
    else
      (te.temporal_attention.forward query retrieved_memories retrieved_memories
        (List.range' 1 retrieved_memories.length),
       { te with memory_bank := (te.memory_bank.retrieve query 5).2 })

/-- `TemporalEncoder::integrate_temporal_context`: return the base output
unchanged when the context is negligible (norm below `1e-8`), otherwise
project the context, add it to the base output and layer-normalize. -/
def TemporalEncoder.integrate_temporal_context (te : TemporalEncoder)
    (base_output temporal_context : Mat) : Except String Mat :=
  if temporal_context.norm < 1e-8 then .ok base_output
  else
    let weighted_context := temporal_context.mul te.memory_integration_weights
    let integrated := base_output.add weighted_context
    te.temporal_layer_norm.forward integrated

/-- The context-selection step of `forward_with_continuity`: explicit previous
states when given, otherwise the 5 nearest memories (with retrieval's side
effects on the bank). -/
def TemporalEncoder.contextStep (te : TemporalEncoder) (base_output : Mat)
    (previous_states : List Mat) (temporal_positions : List ℕ) :
    Except String Mat × TemporalEncoder :=
  if ¬ previous_states.isEmpty then
    (te.compute_temporal_context base_output previous_states temporal_positions, te)
  else
    te.retrieve_memory_context base_output

/-- `TemporalEncoder::forward_with_continuity`. -/
def TemporalEncoder.forward_with_continuity (te : TemporalEncoder)
    (input_ids : List ℕ) (mask : Option Mask) (previous_states : List Mat)
    (temporal_positions : List ℕ) : Except String Mat × TemporalEncoder :=
  match te.base_encoder input_ids mask with
  | .error e => (.error e, te)
  | .ok base_output =>
    match te.contextStep base_output previous_states temporal_positions with
    | (.error e, te1) => (.error e, te1)
    | (.ok temporal_context, te1) =>
      match te1.integrate_temporal_context base_output temporal_context with
      | .error e => (.error e, te1)
      | .ok enhanced_output => (.ok enhanced_output, te1.store_in_memory enhanced_output)

/-! ### Basic facts about the bank operations -/

theorem MemoryBank.evict_current_timestamp (b : MemoryBank) :
    b.evict_memories.current_timestamp = b.current_timestamp :=
  rfl

theorem MemoryBank.evict_config (b : MemoryBank) :
    b.evict_memories.config = b.config :=
  rfl

theorem MemoryBank.store_current_timestamp (b : MemoryBank) (m : Mat) :
    (b.store m).current_timestamp = b.current_timestamp + 1 := by
  unfold MemoryBank.store
  split <;> rfl

theorem MemoryBank.store_config (b : MemoryBank) (m : Mat) :
    (b.store m).config = b.config := by
  unfold MemoryBank.store
  split <;> rfl

theorem MemoryBank.storeAll_current_timestamp (ms : List Mat) :
    ∀ b : MemoryBank, (b.storeAll ms).current_timestamp = b.current_timestamp + ms.length := by
  induction ms with
  | nil => intro b; simp [MemoryBank.storeAll]
  | cons m rest ih =>
    intro b
    have h1 : b.storeAll (m :: rest) = (b.store m).storeAll rest := rfl
    rw [h1, ih, MemoryBank.store_current_timestamp]
    simp only [List.length_cons]
    omega

/-- C3: `current_timestamp` counts the `store` calls since construction or
since the most recent `clear()`: each `store` increments it by exactly one (so
it never decreases or repeats), `clear()` leaves an empty bank with timestamp
`0`, and the first `store` after a `clear()` (or after construction) yields
timestamp `1`. -/
theorem timestamp_counts_stores :
    ∀ (b : MemoryBank) (m : Mat) (cfg : MemoryConfig) (ms : List Mat),
      (b.store m).current_timestamp = b.current_timestamp + 1 ∧
      b.clear.size = 0 ∧
      b.clear.current_timestamp = 0 ∧
      (b.clear.store m).current_timestamp = 1 ∧
      ((MemoryBank.new cfg).storeAll ms).current_timestamp = ms.length ∧
      (b.clear.storeAll ms).current_timestamp = ms.length := by
  intro b m cfg ms
  refine ⟨MemoryBank.store_current_timestamp b m, rfl, rfl, ?_, ?_, ?_⟩
  · rw [MemoryBank.store_current_timestamp]
    rfl
  · rw [MemoryBank.storeAll_current_timestamp]
    simp [MemoryBank.new]
  · rw [MemoryBank.storeAll_current_timestamp]
    simp [MemoryBank.clear]

/-- C8: `get_temporal_context` does not read its `query` argument (any two
queries give identical results) and leaves the bank — entries, importance
scores, access counts, timestamp and archive — entirely unchanged. -/
theorem get_temporal_context_query_independent_and_pure :
    ∀ (b : MemoryBank) (q1 q2 : Mat) (d : ℕ),
      b.get_temporal_context q1 d = b.get_temporal_context q2 d ∧
      (b.get_temporal_context q1 d).2 = b :=
  fun _ _ _ _ => ⟨rfl, rfl⟩

/-! ### Cosine similarity -/

theorem Mat.dot_self_nonneg (a : Mat) : 0 ≤ a.dot a := by
  unfold Mat.dot
  refine Finset.sum_nonneg fun i _ => Finset.sum_nonneg fun j _ => mul_self_nonneg _

theorem Mat.dot_self_pos (a : Mat)
    (h : ∃ i j, i < a.rows ∧ j < a.cols ∧ a.entry i j ≠ 0) : 0 < a.dot a := by
  obtain ⟨i, j, hi, hj, hne⟩ := h
  unfold Mat.dot
  refine Finset.sum_pos' (fun i2 _ => Finset.sum_nonneg fun j2 _ => mul_self_nonneg _) ?_
  refine ⟨i, Finset.mem_range.mpr hi, ?_⟩
  refine Finset.sum_pos' (fun j2 _ => mul_self_nonneg _) ?_
  exact ⟨j, Finset.mem_range.mpr hj, mul_self_pos.mpr hne⟩

/-- C7: `cosine_similarity` fails (with the shape-mismatch error) iff the
shapes differ; with matching shapes it returns exactly `0` when either norm is
zero, and `dot(a,b)/(‖a‖·‖b‖)` otherwise — which for a non-zero vector
compared with itself is exactly `1`. -/
theorem cosine_similarity_spec :
    ∀ a b : Mat,
      ((∃ e, MemoryBank.cosine_similarity a b = .error e) ↔ a.shape ≠ b.shape) ∧
      (a.shape = b.shape → (a.norm = 0 ∨ b.norm = 0) →
        MemoryBank.cosine_similarity a b = .ok 0) ∧
      (a.shape = b.shape → ¬(a.norm = 0 ∨ b.norm = 0) →
        MemoryBank.cosine_similarity a b = .ok (a.dot b / (a.norm * b.norm))) ∧
      ((∃ i j, i < a.rows ∧ j < a.cols ∧ a.entry i j ≠ 0) →
        MemoryBank.cosine_similarity a a = .ok 1) := by
  intro a b
  refine ⟨?_, ?_, ?_, ?_⟩
  · constructor
    · rintro ⟨e, he⟩
      intro hs
      unfold MemoryBank.cosine_similarity at he
      rw [if_neg (not_not.mpr hs)] at he
      split_ifs at he
    · intro hs
      exact ⟨_, by unfold MemoryBank.cosine_similarity; rw [if_pos hs]⟩
  · intro hs hz
    unfold MemoryBank.cosine_similarity
    rw [if_neg (not_not.mpr hs)]
    exact if_pos hz
  · intro hs hz
    unfold MemoryBank.cosine_similarity
    rw [if_neg (not_not.mpr hs)]
    exact if_neg hz
  · intro h
    have hpos : 0 < a.dot a := a.dot_self_pos h
    have hn : a.norm ≠ 0 := by
      unfold Mat.norm
      exact ne_of_gt (Real.sqrt_pos.mpr hpos)
    unfold MemoryBank.cosine_similarity
    rw [if_neg (not_not.mpr rfl), if_neg (by tauto)]
    have hmul : a.norm * a.norm = a.dot a := Real.mul_self_sqrt a.dot_self_nonneg
    rw [hmul, div_self (ne_of_gt hpos)]

/-- Witness for `cosine_similarity_spec`: the all-ones 1×1 matrix has a
non-zero entry, and its self-similarity is exactly `1`. -/
theorem cosine_similarity_spec_witness :
    (∃ i j, i < (Mat.ofFn 1 1 fun _ _ => 1).rows ∧ j < (Mat.ofFn 1 1 fun _ _ => 1).cols ∧
        (Mat.ofFn 1 1 fun _ _ => 1).entry i j ≠ 0) ∧
      MemoryBank.cosine_similarity (Mat.ofFn 1 1 fun _ _ => 1)
        (Mat.ofFn 1 1 fun _ _ => 1) = .ok 1 := by
  have h : ∃ i j, i < (Mat.ofFn 1 1 fun _ _ => 1).rows ∧ j < (Mat.ofFn 1 1 fun _ _ => 1).cols ∧
      (Mat.ofFn 1 1 fun _ _ => 1).entry i j ≠ 0 :=
    ⟨0, 0, Nat.one_pos, Nat.one_pos, by simp [Mat.ofFn]⟩
  exact ⟨h, (cosine_similarity_spec (Mat.ofFn 1 1 fun _ _ => 1) (Mat.ofFn 1 1 fun _ _ => 1)).2.2.2 h⟩

/-! ### Removing a set of positions from a list

`evict_memories` removes its chosen indices by sorting them in descending
order and calling `VecDeque::remove` on each.  The lemmas below identify that
loop with keeping exactly the elements whose position is outside the chosen
index set. -/

/-- The elements of `l` whose position is not in `S`, in order. -/
def keepIdxNot (S : List ℕ) (l : List α) : List α :=
  (l.enum.filter fun p => decide (p.1 ∉ S)).map Prod.snd

theorem foldl_eraseIdx_length (is : List ℕ) :
    ∀ l : List α, is.Pairwise (· > ·) → (∀ i ∈ is, i < l.length) →
      (is.foldl (fun l2 i => l2.eraseIdx i) l).length = l.length - is.length := by
  induction is with
  | nil => intro l _ _; rfl
  | cons i rest ih =>
    intro l hp hv
    have hi : i < l.length := hv i (List.mem_cons_self i rest)
    have hlen : (l.eraseIdx i).length = l.length - 1 := by
      rw [List.length_eraseIdx]
      simp [hi]
    have hrest : ∀ j ∈ rest, j < (l.eraseIdx i).length := by
      intro j hj
      have hji : j < i := (List.pairwise_cons.mp hp).1 j hj
      omega
    have h2 := ih (l.eraseIdx i) (List.pairwise_cons.mp hp).2 hrest
    have h3 : (i :: rest).foldl (fun l2 i2 => l2.eraseIdx i2) l =
        rest.foldl (fun l2 i2 => l2.eraseIdx i2) (l.eraseIdx i) := rfl
    rw [h3, h2, hlen]
    simp only [List.length_cons]
    omega

theorem keepIdxNot_nil (l : List α) : keepIdxNot [] l = l := by
  unfold keepIdxNot
  rw [List.filter_eq_self.mpr (by simp), show l.enum = l.enumFrom 0 from rfl,
    List.enumFrom_map_snd]

theorem keepIdxNot_eraseIdx (i : ℕ) (rest : List ℕ) (l : List α)
    (hi : i < l.length) (hrest : ∀ j ∈ rest, j < i) :
    keepIdxNot rest (l.eraseIdx i) = keepIdxNot (i :: rest) l := by
  have htake : (l.take i).length = i := by
    rw [List.length_take]
    omega
  have hsplit : l = l.take i ++ (l[i] :: l.drop (i + 1)) := by
    rw [← List.drop_eq_getElem_cons hi, List.take_append_drop]
  unfold keepIdxNot
  rw [List.eraseIdx_eq_take_drop_succ]
  have henum1 : (l.take i ++ l.drop (i + 1)).enum =
      (l.take i).enum ++ (l.drop (i + 1)).enumFrom i := by
    show (l.take i ++ l.drop (i + 1)).enumFrom 0 =
      (l.take i).enumFrom 0 ++ (l.drop (i + 1)).enumFrom i
    rw [List.enumFrom_append, htake, Nat.zero_add]
  have henum2 : l.enum =
      (l.take i).enum ++ ((i, l[i]) :: (l.drop (i + 1)).enumFrom (i + 1)) := by
    conv_lhs => rw [hsplit]
    show (l.take i ++ (l[i] :: l.drop (i + 1))).enumFrom 0 =
      (l.take i).enumFrom 0 ++ ((i, l[i]) :: (l.drop (i + 1)).enumFrom (i + 1))
    rw [List.enumFrom_append, htake, Nat.zero_add]
    rfl
  rw [henum1, henum2, List.filter_append, List.filter_append]
  have hpre : ((l.take i).enum.filter fun p => decide (p.1 ∉ rest)) =
      ((l.take i).enum.filter fun p => decide (p.1 ∉ i :: rest)) := by
    refine List.filter_congr ?_
    intro p hp
    have hplt : p.1 < i := by
      have := List.fst_lt_add_of_mem_enumFrom hp
      omega
    have : (p.1 ∉ rest) ↔ (p.1 ∉ i :: rest) := by
      simp only [List.mem_cons]
      constructor
      · intro h hc
        rcases hc with hc | hc
        · omega
        · exact h hc
      · intro h hc
        exact h (Or.inr hc)
    exact decide_eq_decide.mpr this
  have hsuf1 : ((l.drop (i + 1)).enumFrom i).filter (fun p => decide (p.1 ∉ rest)) =
      (l.drop (i + 1)).enumFrom i := by
    refine List.filter_eq_self.mpr ?_
    intro p hp
    have hge := List.le_fst_of_mem_enumFrom hp
    simp only [decide_eq_true_eq]
    intro hmem
    exact absurd (hrest _ hmem) (not_lt.mpr hge)
  have hsuf2 : (((i, l[i]) :: (l.drop (i + 1)).enumFrom (i + 1)).filter
        fun p => decide (p.1 ∉ i :: rest)) =
      ((l.drop (i + 1)).enumFrom (i + 1)).filter fun p => decide (p.1 ∉ i :: rest) := by
    rw [List.filter_cons]
    simp
  have hsuf3 : (((l.drop (i + 1)).enumFrom (i + 1)).filter
        fun p => decide (p.1 ∉ i :: rest)) = (l.drop (i + 1)).enumFrom (i + 1) := by
    refine List.filter_eq_self.mpr ?_
    intro p hp
    have hge := List.le_fst_of_mem_enumFrom hp
    simp only [decide_eq_true_eq, List.mem_cons]
    intro hmem
    rcases hmem with hmem | hmem
    · omega
    · exact absurd (hrest _ hmem) (not_lt.mpr (by omega))
  rw [hpre, hsuf1, hsuf2, hsuf3, List.map_append, List.map_append]
  have hmap1 : ((l.drop (i + 1)).enumFrom i).map Prod.snd = l.drop (i + 1) :=
    List.enumFrom_map_snd _ _
  have hmap2 : ((l.drop (i + 1)).enumFrom (i + 1)).map Prod.snd = l.drop (i + 1) :=
    List.enumFrom_map_snd _ _
  rw [hmap1, hmap2]

theorem foldl_eraseIdx_keepIdxNot (is : List ℕ) :
    ∀ l : List α, is.Pairwise (· > ·) → (∀ i ∈ is, i < l.length) →
      is.foldl (fun l2 i => l2.eraseIdx i) l = keepIdxNot is l := by
  induction is with
  | nil => intro l _ _; exact (keepIdxNot_nil l).symm
  | cons i rest ih =>
    intro l hp hv
    have hi : i < l.length := hv i (List.mem_cons_self i rest)
    have hresti : ∀ j ∈ rest, j < i := (List.pairwise_cons.mp hp).1
    have hrest : ∀ j ∈ rest, j < (l.eraseIdx i).length := by
      intro j hj
      have := hresti j hj
      rw [List.length_eraseIdx]
      simp [hi]
      omega
    have h3 : (i :: rest).foldl (fun l2 i2 => l2.eraseIdx i2) l =
        rest.foldl (fun l2 i2 => l2.eraseIdx i2) (l.eraseIdx i) := rfl
    rw [h3, ih (l.eraseIdx i) (List.pairwise_cons.mp hp).2 hrest,
      keepIdxNot_eraseIdx i rest l hi hresti]

/-- `keepIdxNot` only depends on the index set through membership. -/
theorem keepIdxNot_congr (S T : List ℕ) (l : List α)
    (h : ∀ i, i ∈ S ↔ i ∈ T) : keepIdxNot S l = keepIdxNot T l := by
  unfold keepIdxNot
  rw [List.filter_congr]
  intro p _
  exact decide_eq_decide.mpr (not_congr (h p.1))

/-! ### Properties of the eviction index selection -/

theorem MemoryBank.evictUpdated_length (b : MemoryBank) :
    b.evictUpdated.length = b.memories.length :=
  List.length_map _ _

theorem MemoryBank.evictIndices_subset_range (b : MemoryBank) :
    ∀ i ∈ b.evictIndices, i < b.evictUpdated.length := by
  intro i hi
  unfold MemoryBank.evictIndices at hi
  rw [List.map_take] at hi
  have h1 : i ∈ (List.insertionSort evictLe
      ((b.evictUpdated.map MemoryEntry.importance_score).enum)).map Prod.fst :=
    List.take_subset _ _ hi
  have h2 : List.Perm ((List.insertionSort evictLe
      ((b.evictUpdated.map MemoryEntry.importance_score).enum)).map Prod.fst)
      (((b.evictUpdated.map MemoryEntry.importance_score).enum).map Prod.fst) :=
    (List.perm_insertionSort _ _).map _
  rw [List.enum_map_fst] at h2
  have h3 : i ∈ List.range (b.evictUpdated.map MemoryEntry.importance_score).length :=
    h2.mem_iff.mp h1
  rw [List.mem_range, List.length_map] at h3
  exact h3

theorem MemoryBank.evictIndices_nodup (b : MemoryBank) : b.evictIndices.Nodup := by
  unfold MemoryBank.evictIndices
  rw [List.map_take]
  refine List.Nodup.sublist (List.take_sublist _ _) ?_
  have h2 : List.Perm ((List.insertionSort evictLe
      ((b.evictUpdated.map MemoryEntry.importance_score).enum)).map Prod.fst)
      (((b.evictUpdated.map MemoryEntry.importance_score).enum).map Prod.fst) :=
    (List.perm_insertionSort _ _).map _
  rw [List.enum_map_fst] at h2
  exact h2.nodup_iff.mpr (List.nodup_range _)

theorem MemoryBank.evictIndices_length (b : MemoryBank) :
    b.evictIndices.length = min b.evictNum b.memories.length := by
  unfold MemoryBank.evictIndices
  rw [List.length_map, List.length_take, (List.perm_insertionSort _ _).length_eq,
    List.enum_length, List.length_map, MemoryBank.evictUpdated_length]

theorem descSort_pairwise_gt (S : List ℕ) (h : S.Nodup) :
    (List.insertionSort descLe S).Pairwise (· > ·) := by
  have hs : (List.insertionSort descLe S).Pairwise descLe :=
    List.sorted_insertionSort descLe S
  have hn : (List.insertionSort descLe S).Pairwise (· ≠ ·) :=
    (List.perm_insertionSort descLe S).nodup_iff.mpr h
  refine (hs.and hn).imp ?_
  rintro a b2 ⟨hle, hne⟩
  exact lt_of_le_of_ne hle (Ne.symm hne)

theorem MemoryBank.evict_memories_eq_keepIdxNot (b : MemoryBank) :
    b.evict_memories.memories = keepIdxNot b.evictIndices b.evictUpdated := by
  have hperm : List.Perm (List.insertionSort descLe b.evictIndices) b.evictIndices :=
    List.perm_insertionSort _ _
  have hpair : (List.insertionSort descLe b.evictIndices).Pairwise (· > ·) :=
    descSort_pairwise_gt _ b.evictIndices_nodup
  have hvalid : ∀ i ∈ List.insertionSort descLe b.evictIndices,
      i < b.evictUpdated.length := fun i hi =>
    b.evictIndices_subset_range i (hperm.mem_iff.mp hi)
  have h1 : b.evict_memories.memories =
      keepIdxNot (List.insertionSort descLe b.evictIndices) b.evictUpdated :=
    foldl_eraseIdx_keepIdxNot _ _ hpair hvalid
  rw [h1]
  exact keepIdxNot_congr _ _ _ fun i => hperm.mem_iff

theorem MemoryBank.evict_size_eq (b : MemoryBank) :
    b.evict_memories.memories.length =
      b.memories.length - min b.evictNum b.memories.length := by
  have hperm : List.Perm (List.insertionSort descLe b.evictIndices) b.evictIndices :=
    List.perm_insertionSort _ _
  have hpair : (List.insertionSort descLe b.evictIndices).Pairwise (· > ·) :=
    descSort_pairwise_gt _ b.evictIndices_nodup
  have hvalid : ∀ i ∈ List.insertionSort descLe b.evictIndices,
      i < b.evictUpdated.length := fun i hi =>
    b.evictIndices_subset_range i (hperm.mem_iff.mp hi)
  have h1 : b.evict_memories.memories.length =
      b.evictUpdated.length - (List.insertionSort descLe b.evictIndices).length :=
    foldl_eraseIdx_length _ _ hpair hvalid
  rw [h1, hperm.length_eq, b.evictIndices_length, MemoryBank.evictUpdated_length]

theorem MemoryBank.storePushed_length (b : MemoryBank) (m : Mat) :
    (b.storePushed m).memories.length = b.memories.length + 1 := by
  unfold MemoryBank.storePushed
  simp

theorem MemoryBank.store_size_le (b : MemoryBank) (m : Mat) :
    (b.store m).size ≤ b.config.max_memory_size := by
  unfold MemoryBank.store MemoryBank.size
  split
  · next h =>
    rw [MemoryBank.evict_size_eq, b.storePushed_length m]
    have h2 : (b.storePushed m).evictNum =
        b.memories.length + 1 - b.config.max_memory_size + 1 := by
      unfold MemoryBank.evictNum
      rw [b.storePushed_length m]
      rfl
    rw [h2]
    rw [b.storePushed_length m] at h
    have h3 : b.config.max_memory_size < b.memories.length + 1 := h
    omega
  · next h =>
    rw [b.storePushed_length m]
    have h3 : ¬ b.config.max_memory_size < b.memories.length + 1 := by
      rw [b.storePushed_length m] at h
      exact h
    omega

theorem MemoryBank.storeAll_config (ms : List Mat) :
    ∀ b : MemoryBank, (b.storeAll ms).config = b.config := by
  induction ms with
  | nil => intro b; rfl
  | cons m rest ih =>
    intro b
    have h1 : b.storeAll (m :: rest) = (b.store m).storeAll rest := rfl
    rw [h1, ih, MemoryBank.store_config]

/-- C2: for every bank and every sequence of `store` calls, the live-entry
count is at most `max_memory_size` after each call. -/
theorem store_capacity_invariant :
    ∀ (b : MemoryBank) (ms : List Mat) (i : ℕ), i < ms.length →
      (b.storeAll (ms.take (i + 1))).size ≤ b.config.max_memory_size := by
  intro b ms i hi
  have htake : ms.take (i + 1) = ms.take i ++ [ms[i]] := by
    rw [List.take_succ, List.getElem?_eq_getElem hi]
    rfl
  have hfold : b.storeAll (ms.take (i + 1)) = (b.storeAll (ms.take i)).store ms[i] := by
    rw [htake]
    unfold MemoryBank.storeAll
    rw [List.foldl_append]
    rfl
  rw [hfold]
  have h := (b.storeAll (ms.take i)).store_size_le ms[i]
  rwa [MemoryBank.storeAll_config] at h

/-- Witness for `store_capacity_invariant`: one store into a fresh
default-configured bank. -/
theorem store_capacity_invariant_witness :
    0 < ([Mat.zeros 1 1] : List Mat).length ∧
      ((MemoryBank.new MemoryConfig.default).storeAll
          (([Mat.zeros 1 1] : List Mat).take (0 + 1))).size ≤
        (MemoryBank.new MemoryConfig.default).config.max_memory_size :=
  ⟨Nat.one_pos,
    store_capacity_invariant (MemoryBank.new MemoryConfig.default)
      [Mat.zeros 1 1] 0 Nat.one_pos⟩

/-- C1 (amended): when a `store` call pushes the live count above
`max_memory_size`, the triggered eviction first refreshes every live entry's
importance at the current timestamp (the post-push list is
`(b.storePushed m).evictUpdated`), then removes a duplicate-free set `S` of
positions such that every removed position precedes every kept one in the
(importance, original index) lexicographic order — lowest importance first,
ties broken by lower original index.  Amendment forced by the code: `S` has
`size - max_memory_size + 1` elements, one more than the claim states, so the
resulting live count is exactly `max_memory_size - 1`, not `max_memory_size`. -/
theorem store_eviction_refreshes_and_removes_lowest (b : MemoryBank) (m : Mat)
    (hcap : b.config.max_memory_size ≤ b.memories.length)
    (hpos : 1 ≤ b.config.max_memory_size) :
    ∃ S : List ℕ,
      (b.store m).memories = keepIdxNot S ((b.storePushed m).evictUpdated) ∧
      S.Nodup ∧
      S.length = b.memories.length + 1 - b.config.max_memory_size + 1 ∧
      (∀ i ∈ S, i < (b.storePushed m).evictUpdated.length ∧
        ∀ j, j < (b.storePushed m).evictUpdated.length → j ∉ S →
          evictLe
            (i, ((b.storePushed m).evictUpdated.map MemoryEntry.importance_score).getD i 0)
            (j, ((b.storePushed m).evictUpdated.map MemoryEntry.importance_score).getD j 0)) ∧
      (b.store m).memories.length = b.config.max_memory_size - 1 := by
  have hlen1 : (b.storePushed m).memories.length = b.memories.length + 1 :=
    b.storePushed_length m
  have hcfg : (b.storePushed m).config = b.config := rfl
  have htrig : (b.storePushed m).memories.length >
      (b.storePushed m).config.max_memory_size := by
    rw [hlen1, hcfg]
    omega
  have hstore : b.store m = (b.storePushed m).evict_memories := by
    unfold MemoryBank.store
    rw [if_pos htrig]
  have hnum : (b.storePushed m).evictNum =
      b.memories.length + 1 - b.config.max_memory_size + 1 := by
    unfold MemoryBank.evictNum
    rw [hlen1, hcfg]
  refine ⟨(b.storePushed m).evictIndices, ?_, (b.storePushed m).evictIndices_nodup,
    ?_, ?_, ?_⟩
  · rw [hstore]
    exact (b.storePushed m).evict_memories_eq_keepIdxNot
  · rw [(b.storePushed m).evictIndices_length, hnum, hlen1]
    omega
  · intro i hi
    have himem := hi
    unfold MemoryBank.evictIndices at himem
    obtain ⟨p, hp, hpi⟩ := List.mem_map.mp himem
    have hpsorted : p ∈ List.insertionSort evictLe
        (((b.storePushed m).evictUpdated.map MemoryEntry.importance_score).enum) :=
      List.take_subset _ _ hp
    have hpenum : p ∈ ((b.storePushed m).evictUpdated.map MemoryEntry.importance_score).enum :=
      (List.perm_insertionSort _ _).mem_iff.mp hpsorted
    have hpget := List.mem_enum_iff_get?.mp hpenum
    obtain ⟨hplt, hpval⟩ := List.get?_eq_some.mp hpget
    have hilt : i < (b.storePushed m).evictUpdated.length := by
      rw [← hpi]
      rw [List.length_map] at hplt
      exact hplt
    refine ⟨hilt, ?_⟩
    intro j hj hjS
    have hjlt : j < ((b.storePushed m).evictUpdated.map MemoryEntry.importance_score).length := by
      rw [List.length_map]
      exact hj
    have hjget : ((b.storePushed m).evictUpdated.map MemoryEntry.importance_score).get? j =
        some (((b.storePushed m).evictUpdated.map MemoryEntry.importance_score).getD j 0) := by
      rw [List.getD_eq_getElem _ _ hjlt, List.get?_eq_getElem?, List.getElem?_eq_getElem hjlt]
    have hjenum : (j, ((b.storePushed m).evictUpdated.map MemoryEntry.importance_score).getD j 0) ∈
        ((b.storePushed m).evictUpdated.map MemoryEntry.importance_score).enum :=
      List.mem_enum_iff_get?.mpr hjget
    have hjsorted : (j, ((b.storePushed m).evictUpdated.map MemoryEntry.importance_score).getD j 0) ∈
        List.insertionSort evictLe
          (((b.storePushed m).evictUpdated.map MemoryEntry.importance_score).enum) :=
      (List.perm_insertionSort _ _).mem_iff.mpr hjenum
    rw [← List.take_append_drop (b.storePushed m).evictNum
      (List.insertionSort evictLe
        (((b.storePushed m).evictUpdated.map MemoryEntry.importance_score).enum)),
      List.mem_append] at hjsorted
    rcases hjsorted with hjtake | hjdrop
    · exfalso
      refine hjS ?_
      unfold MemoryBank.evictIndices
      exact List.mem_map.mpr ⟨_, hjtake, rfl⟩
    · have hsorted : (List.insertionSort evictLe
          (((b.storePushed m).evictUpdated.map MemoryEntry.importance_score).enum)).Pairwise
          evictLe :=
        List.sorted_insertionSort evictLe _
      have hsplit : ((List.insertionSort evictLe
          (((b.storePushed m).evictUpdated.map MemoryEntry.importance_score).enum)).take
            (b.storePushed m).evictNum ++
          (List.insertionSort evictLe
            (((b.storePushed m).evictUpdated.map MemoryEntry.importance_score).enum)).drop
            (b.storePushed m).evictNum).Pairwise evictLe := by
        rw [List.take_append_drop]
        exact hsorted
      have hrel := (List.pairwise_append.mp hsplit).2.2 p hp _ hjdrop
      have hilt2 : i < ((b.storePushed m).evictUpdated.map MemoryEntry.importance_score).length := by
        rw [List.length_map]
        exact hilt
      have hgdi : ((b.storePushed m).evictUpdated.map MemoryEntry.importance_score).getD i 0 =
          p.2 := by
        rw [List.getD_eq_getElem _ _ hilt2, ← hpval]
        rw [List.get_eq_getElem]
        congr 1
        exact hpi.symm
      have hpeq : p = (i, ((b.storePushed m).evictUpdated.map
          MemoryEntry.importance_score).getD i 0) :=
        Prod.ext hpi hgdi.symm
      rw [← hpeq]
      exact hrel
  · rw [hstore, (b.storePushed m).evict_size_eq, hlen1, hnum]
    omega

/-- Witness for `store_eviction_refreshes_and_removes_lowest`: a bank at
capacity 1 holding one entry, receiving one more store. -/
theorem store_eviction_refreshes_and_removes_lowest_witness :
    (MemoryBank.mk [MemoryEntry.new (Mat.zeros 1 1) 1]
        (MemoryConfig.mk 1 1 (1/10) (1/2)) 1 []).config.max_memory_size ≤
      (MemoryBank.mk [MemoryEntry.new (Mat.zeros 1 1) 1]
        (MemoryConfig.mk 1 1 (1/10) (1/2)) 1 []).memories.length ∧
    1 ≤ (MemoryBank.mk [MemoryEntry.new (Mat.zeros 1 1) 1]
        (MemoryConfig.mk 1 1 (1/10) (1/2)) 1 []).config.max_memory_size ∧
    ∃ S : List ℕ,
      ((MemoryBank.mk [MemoryEntry.new (Mat.zeros 1 1) 1]
          (MemoryConfig.mk 1 1 (1/10) (1/2)) 1 []).store (Mat.zeros 1 1)).memories =
        keepIdxNot S (((MemoryBank.mk [MemoryEntry.new (Mat.zeros 1 1) 1]
          (MemoryConfig.mk 1 1 (1/10) (1/2)) 1 []).storePushed (Mat.zeros 1 1)).evictUpdated) ∧
      S.Nodup ∧
      S.length = (MemoryBank.mk [MemoryEntry.new (Mat.zeros 1 1) 1]
          (MemoryConfig.mk 1 1 (1/10) (1/2)) 1 []).memories.length + 1 -
        (MemoryBank.mk [MemoryEntry.new (Mat.zeros 1 1) 1]
          (MemoryConfig.mk 1 1 (1/10) (1/2)) 1 []).config.max_memory_size + 1 ∧
      (∀ i ∈ S, i < (((MemoryBank.mk [MemoryEntry.new (Mat.zeros 1 1) 1]
          (MemoryConfig.mk 1 1 (1/10) (1/2)) 1 []).storePushed (Mat.zeros 1 1)).evictUpdated).length ∧
        ∀ j, j < (((MemoryBank.mk [MemoryEntry.new (Mat.zeros 1 1) 1]
            (MemoryConfig.mk 1 1 (1/10) (1/2)) 1 []).storePushed (Mat.zeros 1 1)).evictUpdated).length →
          j ∉ S →
          evictLe
            (i, ((((MemoryBank.mk [MemoryEntry.new (Mat.zeros 1 1) 1]
              (MemoryConfig.mk 1 1 (1/10) (1/2)) 1 []).storePushed (Mat.zeros 1 1)).evictUpdated).map
                MemoryEntry.importance_score).getD i 0)
            (j, ((((MemoryBank.mk [MemoryEntry.new (Mat.zeros 1 1) 1]
              (MemoryConfig.mk 1 1 (1/10) (1/2)) 1 []).storePushed (Mat.zeros 1 1)).evictUpdated).map
                MemoryEntry.importance_score).getD j 0)) ∧
      ((MemoryBank.mk [MemoryEntry.new (Mat.zeros 1 1) 1]
          (MemoryConfig.mk 1 1 (1/10) (1/2)) 1 []).store (Mat.zeros 1 1)).memories.length =
        (MemoryBank.mk [MemoryEntry.new (Mat.zeros 1 1) 1]
          (MemoryConfig.mk 1 1 (1/10) (1/2)) 1 []).config.max_memory_size - 1 := by
  refine ⟨le_refl 1, le_refl 1, ?_⟩
  exact store_eviction_refreshes_and_removes_lowest
    (MemoryBank.mk [MemoryEntry.new (Mat.zeros 1 1) 1]
      (MemoryConfig.mk 1 1 (1/10) (1/2)) 1 []) (Mat.zeros 1 1) (le_refl 1) (le_refl 1)

/-- Counterexample to C1 as stated: a bank with capacity 2 holding two live
entries receives a third by `store`; the claim says eviction stops at exactly
`max_memory_size = 2` live entries, but the code leaves 1. -/
theorem store_eviction_count_counterexample :
    ((MemoryBank.mk
        [MemoryEntry.new (Mat.zeros 1 1) 1, MemoryEntry.new (Mat.zeros 1 1) 2]
        (MemoryConfig.mk 2 1 (1/10) (1/2)) 2 []).store (Mat.zeros 1 1)).memories.length = 1 ∧
    (MemoryBank.mk
        [MemoryEntry.new (Mat.zeros 1 1) 1, MemoryEntry.new (Mat.zeros 1 1) 2]
        (MemoryConfig.mk 2 1 (1/10) (1/2)) 2 []).config.max_memory_size = 2 := by
  constructor
  · have htrig : ((MemoryBank.mk
        [MemoryEntry.new (Mat.zeros 1 1) 1, MemoryEntry.new (Mat.zeros 1 1) 2]
        (MemoryConfig.mk 2 1 (1/10) (1/2)) 2 []).storePushed (Mat.zeros 1 1)).memories.length >
        ((MemoryBank.mk
        [MemoryEntry.new (Mat.zeros 1 1) 1, MemoryEntry.new (Mat.zeros 1 1) 2]
        (MemoryConfig.mk 2 1 (1/10) (1/2)) 2 []).storePushed (Mat.zeros 1 1)).config.max_memory_size := by
      simp [MemoryBank.storePushed]
    have hstore : (MemoryBank.mk
        [MemoryEntry.new (Mat.zeros 1 1) 1, MemoryEntry.new (Mat.zeros 1 1) 2]
        (MemoryConfig.mk 2 1 (1/10) (1/2)) 2 []).store (Mat.zeros 1 1) =
        ((MemoryBank.mk
        [MemoryEntry.new (Mat.zeros 1 1) 1, MemoryEntry.new (Mat.zeros 1 1) 2]
        (MemoryConfig.mk 2 1 (1/10) (1/2)) 2 []).storePushed (Mat.zeros 1 1)).evict_memories := by
      unfold MemoryBank.store
      rw [if_pos htrig]
    rw [hstore, MemoryBank.evict_size_eq, MemoryBank.storePushed_length]
    have hnum : ((MemoryBank.mk
        [MemoryEntry.new (Mat.zeros 1 1) 1, MemoryEntry.new (Mat.zeros 1 1) 2]
        (MemoryConfig.mk 2 1 (1/10) (1/2)) 2 []).storePushed (Mat.zeros 1 1)).evictNum = 2 := by
      unfold MemoryBank.evictNum
      rw [MemoryBank.storePushed_length]
      simp [MemoryBank.storePushed]
    rw [hnum]
    norm_num
  · rfl

/-! ### Retrieval -/

/-- Placeholder entry for `getD`-style indexing in statements. -/
def defaultEntry : MemoryEntry :=
  ⟨Mat.zeros 0 0, 0, 0, 0⟩

theorem getD_set_self {α : Type} (l : List α) (i : ℕ) (x d : α) (h : i < l.length) :
    (l.set i x).getD i d = x := by
  rw [List.getD_eq_getElem?_getD, List.getElem?_set_self h]
  rfl

theorem getD_set_ne {α : Type} (l : List α) (i j : ℕ) (x d : α) (h : i ≠ j) :
    (l.set i x).getD j d = l.getD j d := by
  rw [List.getD_eq_getElem?_getD, List.getElem?_set_ne h, ← List.getD_eq_getElem?_getD]

theorem cosine_similarity_ok_of_shape (a b : Mat) (h : b.shape = a.shape) :
    ∃ s, MemoryBank.cosine_similarity a b = .ok s := by
  unfold MemoryBank.cosine_similarity
  rw [if_neg (not_not.mpr h.symm)]
  split_ifs
  · exact ⟨_, rfl⟩
  · exact ⟨_, rfl⟩

theorem computeSimilarities_ok (q : Mat) (ms : List MemoryEntry)
    (h : ∀ e ∈ ms, e.representation.shape = q.shape) :
    ∃ sims, MemoryBank.computeSimilarities q ms = .ok sims ∧ sims.length = ms.length := by
  induction ms with
  | nil => exact ⟨[], rfl, rfl⟩
  | cons m rest ih =>
    obtain ⟨s, hs⟩ :=
      cosine_similarity_ok_of_shape q m.representation (h m (List.mem_cons_self m rest))
    obtain ⟨sims, hsims, hlen⟩ := ih fun e he => h e (List.mem_cons_of_mem _ he)
    refine ⟨s :: sims, ?_, by simp [hlen]⟩
    unfold MemoryBank.computeSimilarities
    rw [hs, hsims]

theorem retrieveSelected_nodup (sims : List ℝ) (k : ℕ) : (retrieveSelected sims k).Nodup := by
  unfold retrieveSelected
  rw [List.map_take]
  refine List.Nodup.sublist (List.take_sublist _ _) ?_
  have h2 : List.Perm ((List.insertionSort retrieveLe sims.enum).map Prod.fst)
      (sims.enum.map Prod.fst) :=
    (List.perm_insertionSort _ _).map _
  rw [List.enum_map_fst] at h2
  exact h2.nodup_iff.mpr (List.nodup_range _)

theorem retrieveSelected_valid (sims : List ℝ) (k : ℕ) :
    ∀ i ∈ retrieveSelected sims k, i < sims.length := by
  intro i hi
  unfold retrieveSelected at hi
  rw [List.map_take] at hi
  have h1 : i ∈ (List.insertionSort retrieveLe sims.enum).map Prod.fst :=
    List.take_subset _ _ hi
  have h2 : List.Perm ((List.insertionSort retrieveLe sims.enum).map Prod.fst)
      (sims.enum.map Prod.fst) :=
    (List.perm_insertionSort _ _).map _
  rw [List.enum_map_fst] at h2
  have h3 := h2.mem_iff.mp h1
  rwa [List.mem_range] at h3

theorem retrieveSelected_length (sims : List ℝ) (k : ℕ) :
    (retrieveSelected sims k).length = min k sims.length := by
  unfold retrieveSelected
  rw [List.length_map, List.length_take, (List.perm_insertionSort _ _).length_eq,
    List.enum_length]

theorem retrieveFold_spec (decay : ℝ) (ct : ℕ) (S : List ℕ) :
    ∀ (l : List MemoryEntry) (acc2 : List Mat), S.Nodup → (∀ i ∈ S, i < l.length) →
      (S.foldl (retrieveStep decay ct) (l, acc2)).1.length = l.length ∧
      (∀ j : ℕ,
        (j ∈ S → (S.foldl (retrieveStep decay ct) (l, acc2)).1.getD j defaultEntry =
          (l.getD j defaultEntry).update_importance decay ct) ∧
        (j ∉ S → (S.foldl (retrieveStep decay ct) (l, acc2)).1.getD j defaultEntry =
          l.getD j defaultEntry)) ∧
      (S.foldl (retrieveStep decay ct) (l, acc2)).2 =
        acc2 ++ S.map fun i => (l.getD i defaultEntry).representation := by
  induction S with
  | nil =>
    intro l acc2 _ _
    refine ⟨rfl, fun j => ⟨fun h => absurd h (List.not_mem_nil j), fun _ => rfl⟩, by simp⟩
  | cons i rest ih =>
    intro l acc2 hnd hv
    have hi : i < l.length := hv i (List.mem_cons_self i rest)
    have hinotr : i ∉ rest := (List.nodup_cons.mp hnd).1
    have hstep : retrieveStep decay ct (l, acc2) i =
        (l.set i ((l.getD i defaultEntry).update_importance decay ct),
         acc2 ++ [((l.getD i defaultEntry).update_importance decay ct).representation]) := by
      unfold retrieveStep
      have hgl : l[i]? = some (l.getD i defaultEntry) := by
        rw [List.getD_eq_getElem _ _ hi]
        exact List.getElem?_eq_getElem hi
      rw [hgl]
    have hfold : ((i :: rest).foldl (retrieveStep decay ct) (l, acc2)) =
        rest.foldl (retrieveStep decay ct) (retrieveStep decay ct (l, acc2) i) := rfl
    have hvrest : ∀ i2 ∈ rest,
        i2 < (l.set i ((l.getD i defaultEntry).update_importance decay ct)).length := by
      intro i2 hi2
      rw [List.length_set]
      exact hv i2 (List.mem_cons_of_mem _ hi2)
    obtain ⟨ihlen, ihget, ihret⟩ :=
      ih (l.set i ((l.getD i defaultEntry).update_importance decay ct))
        (acc2 ++ [((l.getD i defaultEntry).update_importance decay ct).representation])
        (List.nodup_cons.mp hnd).2 hvrest
    rw [hfold, hstep]
    refine ⟨by rw [ihlen, List.length_set], ?_, ?_⟩
    · intro j
      constructor
      · intro hj
        rcases List.mem_cons.mp hj with hj | hj
        · subst hj
          rw [(ihget j).2 hinotr, getD_set_self _ _ _ _ hi]
        · have hjne : i ≠ j := fun he => hinotr (he ▸ hj)
          rw [(ihget j).1 hj, getD_set_ne _ _ _ _ _ hjne]
      · intro hj
        have hjr : j ∉ rest := fun hc => hj (List.mem_cons_of_mem _ hc)
        have hjne : i ≠ j := fun he => hj (he ▸ List.mem_cons_self i rest)
        rw [(ihget j).2 hjr, getD_set_ne _ _ _ _ _ hjne]
    · rw [ihret]
      have hmap : (rest.map fun i2 =>
          ((l.set i ((l.getD i defaultEntry).update_importance decay ct)).getD i2
            defaultEntry).representation) =
          rest.map fun i2 => (l.getD i2 defaultEntry).representation := by
        refine List.map_congr_left ?_
        intro i2 hi2
        have hne : i ≠ i2 := fun he => hinotr (he ▸ hi2)
        rw [getD_set_ne _ _ _ _ _ hne]
      rw [hmap, List.append_assoc]
      rfl

/-- C5: `retrieve(q, k)` selects a duplicate-free set of at most `k` live
entries (exactly `min k size` of them), increments the `access_count` of each
selected entry by exactly 1, leaves every non-selected entry entirely
unchanged, and returns exactly the selected representations. -/
theorem retrieve_increments_access_of_returned (b : MemoryBank) (q : Mat) (k : ℕ)
    (hshape : ∀ e ∈ b.memories, e.representation.shape = q.shape) :
    ∃ S : List ℕ,
      S.Nodup ∧
      S.length = min k b.memories.length ∧
      (∀ i ∈ S, i < b.memories.length) ∧
      (b.retrieve q k).2.memories.length = b.memories.length ∧
      (∀ j : ℕ,
        (j ∈ S → ((b.retrieve q k).2.memories.getD j defaultEntry).access_count =
          (b.memories.getD j defaultEntry).access_count + 1) ∧
        (j ∉ S → (b.retrieve q k).2.memories.getD j defaultEntry =
          b.memories.getD j defaultEntry)) ∧
      (b.retrieve q k).1 =
        .ok (S.map fun i => (b.memories.getD i defaultEntry).representation) := by
  obtain ⟨sims, hsims, hlen⟩ := computeSimilarities_ok q b.memories hshape
  have hretr : b.retrieve q k =
      (.ok ((retrieveSelected sims k).foldl
          (retrieveStep b.config.memory_decay_factor b.current_timestamp)
          (b.memories, [])).2,
        { b with
          memories := ((retrieveSelected sims k).foldl
            (retrieveStep b.config.memory_decay_factor b.current_timestamp)
            (b.memories, [])).1 }) := by
    unfold MemoryBank.retrieve
    rw [hsims]
  have hvalid : ∀ i ∈ retrieveSelected sims k, i < b.memories.length := by
    intro i hi
    have := retrieveSelected_valid sims k i hi
    omega
  obtain ⟨hflen, hfget, hfret⟩ :=
    retrieveFold_spec b.config.memory_decay_factor b.current_timestamp
      (retrieveSelected sims k) b.memories [] (retrieveSelected_nodup sims k) hvalid
  refine ⟨retrieveSelected sims k, retrieveSelected_nodup sims k, ?_, hvalid, ?_, ?_, ?_⟩
  · rw [retrieveSelected_length, hlen]
  · rw [hretr]
    exact hflen
  · intro j
    constructor
    · intro hj
      rw [hretr]
      show (((retrieveSelected sims k).foldl _ (b.memories, [])).1.getD j
        defaultEntry).access_count = _
      rw [(hfget j).1 hj]
      rfl
    · intro hj
      rw [hretr]
      exact (hfget j).2 hj
  · rw [hretr]
    show Except.ok ((retrieveSelected sims k).foldl _ (b.memories, [])).2 = _
    rw [hfret]
    rw [List.nil_append]

/-- Witness for `retrieve_increments_access_of_returned`: a one-entry bank
queried with a matching-shape query. -/
theorem retrieve_increments_access_of_returned_witness :
    (∀ e ∈ (MemoryBank.mk [MemoryEntry.new (Mat.zeros 1 1) 1]
        (MemoryConfig.mk 10 1 (1/10) (1/2)) 1 []).memories,
      e.representation.shape = (Mat.zeros 1 1).shape) ∧
    ∃ S : List ℕ,
      S.Nodup ∧
      S.length = min 1 (MemoryBank.mk [MemoryEntry.new (Mat.zeros 1 1) 1]
        (MemoryConfig.mk 10 1 (1/10) (1/2)) 1 []).memories.length ∧
      (∀ i ∈ S, i < (MemoryBank.mk [MemoryEntry.new (Mat.zeros 1 1) 1]
        (MemoryConfig.mk 10 1 (1/10) (1/2)) 1 []).memories.length) ∧
      ((MemoryBank.mk [MemoryEntry.new (Mat.zeros 1 1) 1]
        (MemoryConfig.mk 10 1 (1/10) (1/2)) 1 []).retrieve (Mat.zeros 1 1)
          1).2.memories.length =
        (MemoryBank.mk [MemoryEntry.new (Mat.zeros 1 1) 1]
          (MemoryConfig.mk 10 1 (1/10) (1/2)) 1 []).memories.length ∧
      (∀ j : ℕ,
        (j ∈ S → (((MemoryBank.mk [MemoryEntry.new (Mat.zeros 1 1) 1]
            (MemoryConfig.mk 10 1 (1/10) (1/2)) 1 []).retrieve (Mat.zeros 1 1)
              1).2.memories.getD j defaultEntry).access_count =
          ((MemoryBank.mk [MemoryEntry.new (Mat.zeros 1 1) 1]
            (MemoryConfig.mk 10 1 (1/10) (1/2)) 1 []).memories.getD j
              defaultEntry).access_count + 1) ∧
        (j ∉ S → ((MemoryBank.mk [MemoryEntry.new (Mat.zeros 1 1) 1]
            (MemoryConfig.mk 10 1 (1/10) (1/2)) 1 []).retrieve (Mat.zeros 1 1)
              1).2.memories.getD j defaultEntry =
          (MemoryBank.mk [MemoryEntry.new (Mat.zeros 1 1) 1]
            (MemoryConfig.mk 10 1 (1/10) (1/2)) 1 []).memories.getD j defaultEntry)) ∧
      ((MemoryBank.mk [MemoryEntry.new (Mat.zeros 1 1) 1]
        (MemoryConfig.mk 10 1 (1/10) (1/2)) 1 []).retrieve (Mat.zeros 1 1) 1).1 =
        .ok (S.map fun i => ((MemoryBank.mk [MemoryEntry.new (Mat.zeros 1 1) 1]
          (MemoryConfig.mk 10 1 (1/10) (1/2)) 1 []).memories.getD i
            defaultEntry).representation) := by
  have hshape : ∀ e ∈ (MemoryBank.mk [MemoryEntry.new (Mat.zeros 1 1) 1]
      (MemoryConfig.mk 10 1 (1/10) (1/2)) 1 []).memories,
      e.representation.shape = (Mat.zeros 1 1).shape := by
    intro e he
    simp only [List.mem_singleton] at he
    subst he
    rfl
  exact ⟨hshape,
    retrieve_increments_access_of_returned
      (MemoryBank.mk [MemoryEntry.new (Mat.zeros 1 1) 1]
        (MemoryConfig.mk 10 1 (1/10) (1/2)) 1 []) (Mat.zeros 1 1) 1 hshape⟩

/-! ### Compression -/

theorem Mat.ofFn_congr (r c : ℕ) (f g : ℕ → ℕ → ℝ)
    (h : ∀ i j, i < r → j < c → f i j = g i j) : Mat.ofFn r c f = Mat.ofFn r c g := by
  unfold Mat.ofFn
  congr 1
  funext i j
  by_cases hij : i < r ∧ j < c
  · rw [if_pos hij, if_pos hij, h i j hij.1 hij.2]
  · rw [if_neg hij, if_neg hij]

theorem keepIdxNot_subset (S : List ℕ) (l : List α) :
    ∀ x ∈ keepIdxNot S l, x ∈ l := by
  intro x hx
  unfold keepIdxNot at hx
  obtain ⟨p, hp, hpx⟩ := List.mem_map.mp hx
  have hpe : p ∈ l.enum := List.mem_filter.mp hp |>.1
  have := List.mem_enum_iff_get?.mp hpe
  rw [← hpx]
  exact List.get?_mem this

/-- Entry-level invariant used for the compression scenario: every live entry
has positive importance and a representation of shape `(r, c)`. -/
def BankEntriesOk (r c : ℕ) (b : MemoryBank) : Prop :=
  ∀ e ∈ b.memories, 0 < e.importance_score ∧
    e.representation.rows = r ∧ e.representation.cols = c

theorem update_importance_pos (e : MemoryEntry) (decay : ℝ) (ct : ℕ)
    (hd : 0 < decay) (he : 0 < e.importance_score) :
    0 < (e.update_importance decay ct).importance_score := by
  unfold MemoryEntry.update_importance
  have h1 : 0 < e.importance_score * decay ^ (ct - e.timestamp) :=
    mul_pos he (pow_pos hd _)
  have h2 : 0 ≤ max (Real.log e.access_count) 0 * 0.1 :=
    mul_nonneg (le_max_right _ _) (by norm_num)
  dsimp only
  linarith

theorem store_preserves_entriesOk (r c : ℕ) (b : MemoryBank) (m : Mat)
    (hd : 0 < b.config.memory_decay_factor)
    (hm : m.rows = r ∧ m.cols = c) (hb : BankEntriesOk r c b) :
    BankEntriesOk r c (b.store m) := by
  have hpush : BankEntriesOk r c (b.storePushed m) := by
    intro e he
    unfold MemoryBank.storePushed at he
    simp only [List.mem_append, List.mem_singleton] at he
    rcases he with he | he
    · exact hb e he
    · subst he
      exact ⟨one_pos, hm.1, hm.2⟩
  unfold MemoryBank.store
  split
  · intro e he
    rw [(b.storePushed m).evict_memories_eq_keepIdxNot] at he
    have he2 := keepIdxNot_subset _ _ e he
    unfold MemoryBank.evictUpdated at he2
    obtain ⟨e0, he0, heq⟩ := List.mem_map.mp he2
    obtain ⟨hpos, hrow, hcol⟩ := hpush e0 he0
    subst heq
    refine ⟨update_importance_pos e0 _ _ hd hpos, hrow, hcol⟩
  · exact hpush

theorem storeAll_preserves_entriesOk (r c : ℕ) (ms : List Mat) :
    ∀ b : MemoryBank, 0 < b.config.memory_decay_factor →
      (∀ m ∈ ms, m.rows = r ∧ m.cols = c) → BankEntriesOk r c b →
      BankEntriesOk r c (b.storeAll ms) := by
  induction ms with
  | nil => intro b _ _ hb; exact hb
  | cons m rest ih =>
    intro b hd hms hb
    have h1 : b.storeAll (m :: rest) = (b.store m).storeAll rest := rfl
    rw [h1]
    refine ih (b.store m) ?_ (fun m2 hm2 => hms m2 (List.mem_cons_of_mem _ hm2)) ?_
    · rw [MemoryBank.store_config]
      exact hd
    · exact store_preserves_entriesOk r c b m hd (hms m (List.mem_cons_self m rest)) hb

theorem store_length_of_lt (b : MemoryBank) (m : Mat)
    (h : b.memories.length < b.config.max_memory_size) :
    (b.store m).memories = b.memories ++ [MemoryEntry.new m (b.current_timestamp + 1)] := by
  unfold MemoryBank.store
  rw [if_neg]
  · rfl
  · rw [b.storePushed_length m]
    show ¬ b.config.max_memory_size < b.memories.length + 1
    omega

theorem storeAll_length_of_le (ms : List Mat) :
    ∀ b : MemoryBank, b.memories.length + ms.length ≤ b.config.max_memory_size →
      (b.storeAll ms).memories.length = b.memories.length + ms.length := by
  induction ms with
  | nil => intro b _; rfl
  | cons m rest ih =>
    intro b hle
    simp only [List.length_cons] at hle
    have hlt : b.memories.length < b.config.max_memory_size := by omega
    have h1 : b.storeAll (m :: rest) = (b.store m).storeAll rest := rfl
    rw [h1, ih]
    · rw [store_length_of_lt b m hlt]
      simp only [List.length_append, List.length_cons, List.length_nil]
      omega
    · rw [MemoryBank.store_config, store_length_of_lt b m hlt]
      simp only [List.length_append, List.length_cons, List.length_nil]
      omega

theorem compressFold_loop_spec (r c : ℕ) (ms : List MemoryEntry)
    (hsh : ∀ e ∈ ms, e.representation.rows = r ∧ e.representation.cols = c) :
    ∀ (g : ℕ → ℕ → ℝ) (t : ℝ),
      ms.foldl
        (fun (acc : Mat × ℝ) m =>
          (acc.1.add (m.representation.map fun x => x * m.importance_score),
           acc.2 + m.importance_score))
        (Mat.ofFn r c g, t) =
      (Mat.ofFn r c fun i j =>
        g i j + (ms.map fun e => e.representation.entry i j * e.importance_score).sum,
       t + (ms.map MemoryEntry.importance_score).sum) := by
  induction ms with
  | nil =>
    intro g t
    simp only [List.foldl_nil, List.map_nil, List.sum_nil, add_zero]
  | cons m rest ih =>
    intro g t
    have hm := hsh m (List.mem_cons_self m rest)
    have hstep : (Mat.ofFn r c g).add (m.representation.map fun x => x * m.importance_score) =
        Mat.ofFn r c fun i j => g i j + m.representation.entry i j * m.importance_score := by
      unfold Mat.add Mat.map Mat.ofFn
      simp only
      congr 1
      funext i j
      by_cases hij : i < r ∧ j < c
      · rw [if_pos hij, if_pos hij]
        rw [if_pos hij, if_pos ⟨hm.1 ▸ hij.1, hm.2 ▸ hij.2⟩]
      · rw [if_neg hij, if_neg hij]
    have h1 : (m :: rest).foldl
        (fun (acc : Mat × ℝ) m2 =>
          (acc.1.add (m2.representation.map fun x => x * m2.importance_score),
           acc.2 + m2.importance_score))
        (Mat.ofFn r c g, t) =
        rest.foldl _ ((Mat.ofFn r c g).add
          (m.representation.map fun x => x * m.importance_score), t + m.importance_score) :=
      rfl
    rw [h1, hstep, ih (hsh |> fun h => fun e he => h e (List.mem_cons_of_mem _ he))]
    refine Prod.ext ?_ ?_
    · simp only
      refine Mat.ofFn_congr r c _ _ fun i j _ _ => ?_
      simp only [List.map_cons, List.sum_cons]
      ring
    · simp only [List.map_cons, List.sum_cons]
      ring

theorem compress_memories_spec (r c : ℕ) (ms : List MemoryEntry) (hne : ms ≠ [])
    (hsh : ∀ e ∈ ms, e.representation.rows = r ∧ e.representation.cols = c)
    (hpos : ∀ e ∈ ms, 0 < e.importance_score) :
    MemoryBank.compress_memories ms =
      .ok (Mat.ofFn r c fun i j =>
        (ms.map fun e => e.importance_score * e.representation.entry i j).sum /
          (ms.map MemoryEntry.importance_score).sum) := by
  match ms, hne with
  | m0 :: rest, _ =>
    have hm0 := hsh m0 (List.mem_cons_self m0 rest)
    have hshape0 : m0.representation.shape = (r, c) := by
      unfold Mat.shape
      rw [hm0.1, hm0.2]
    have hzeros : Mat.zeros m0.representation.shape.1 m0.representation.shape.2 =
        Mat.ofFn r c fun _ _ => 0 := by
      rw [hshape0]
      rfl
    have hfold : compressFold m0.representation.shape (m0 :: rest) =
        (Mat.ofFn r c fun i j =>
          ((m0 :: rest).map fun e => e.representation.entry i j * e.importance_score).sum,
         ((m0 :: rest).map MemoryEntry.importance_score).sum) := by
      unfold compressFold
      rw [hzeros, compressFold_loop_spec r c (m0 :: rest) hsh]
      refine Prod.ext ?_ ?_
      · simp only
        exact Mat.ofFn_congr r c _ _ fun i j _ _ => zero_add _
      · simp only [zero_add]
    have htotal : 0 < ((m0 :: rest).map MemoryEntry.importance_score).sum := by
      refine List.sum_pos _ ?_ (by simp)
      intro x hx
      obtain ⟨e, he, hex⟩ := List.mem_map.mp hx
      rw [← hex]
      exact hpos e he
    show (if (compressFold m0.representation.shape (m0 :: rest)).2 > 0 then _ else _) = _
    rw [hfold]
    rw [if_pos (by simpa using htotal)]
    congr 1
    unfold Mat.map
    show Mat.ofFn (Mat.ofFn r c _).rows (Mat.ofFn r c _).cols _ = _
    have hro : (Mat.ofFn r c fun i j =>
        ((m0 :: rest).map fun e => e.representation.entry i j * e.importance_score).sum).rows = r :=
      rfl
    have hco : (Mat.ofFn r c fun i j =>
        ((m0 :: rest).map fun e => e.representation.entry i j * e.importance_score).sum).cols = c :=
      rfl
    rw [hro, hco]
    refine Mat.ofFn_congr r c _ _ fun i j hi hj => ?_
    show (Mat.ofFn r c fun i2 j2 =>
      ((m0 :: rest).map fun e => e.representation.entry i2 j2 * e.importance_score).sum).entry i j /
        _ = _
    unfold Mat.ofFn
    simp only
    rw [if_pos ⟨hi, hj⟩]
    congr 1
    refine congrArg List.sum (List.map_congr_left fun e _ => ?_)
    ring

theorem store_length_of_ge (b : MemoryBank) (m : Mat)
    (hcap : b.config.max_memory_size ≤ b.memories.length)
    (hpos : 1 ≤ b.config.max_memory_size) :
    (b.store m).memories.length = b.config.max_memory_size - 1 := by
  have hlen1 : (b.storePushed m).memories.length = b.memories.length + 1 :=
    b.storePushed_length m
  have hcfg : (b.storePushed m).config = b.config := rfl
  have htrig : (b.storePushed m).memories.length >
      (b.storePushed m).config.max_memory_size := by
    rw [hlen1, hcfg]
    omega
  have hstore : b.store m = (b.storePushed m).evict_memories := by
    unfold MemoryBank.store
    rw [if_pos htrig]
  rw [hstore, (b.storePushed m).evict_size_eq, hlen1]
  have hnum : (b.storePushed m).evictNum =
      b.memories.length + 1 - b.config.max_memory_size + 1 := by
    unfold MemoryBank.evictNum
    rw [hlen1, hcfg]
  rw [hnum]
  omega

/-- C4: with `max_memory_size = 10` and `compression_ratio = 0.5`, after 11
stores and one `compress_old_memories` call, exactly 5 entries — the oldest in
arrival order — are removed from the live queue, and exactly one vector is
appended to the compressed archive, equal to
`sum(importance_i * vec_i) / sum(importance_i)` over those 5 removed entries.
(After the 11th store the live queue holds 9 entries, eviction having already
removed 2; compression then drains the 5 oldest of those.) -/
theorem compress_after_eleven_stores
    (decay thr : ℝ) (ms : List Mat) (r c : ℕ) (b : MemoryBank)
    (hd : 0 < decay)
    (hms : ms.length = 11)
    (hsh : ∀ m ∈ ms, m.rows = r ∧ m.cols = c)
    (hb : b = (MemoryBank.new (MemoryConfig.mk 10 decay thr (1/2))).storeAll ms) :
    (b.compress_old_memories).2.memories = b.memories.drop 5 ∧
    b.memories.length = (b.compress_old_memories).2.memories.length + 5 ∧
    (b.compress_old_memories).2.compressed_memories =
      b.compressed_memories ++
        [Mat.ofFn r c fun i j =>
          ((b.memories.take 5).map fun e =>
            e.importance_score * e.representation.entry i j).sum /
            ((b.memories.take 5).map MemoryEntry.importance_score).sum] ∧
    (b.compress_old_memories).1 = .ok () := by
  have hne : ms ≠ [] := by
    intro hc
    rw [hc] at hms
    exact absurd hms (by simp)
  have hsplit : ms.dropLast ++ [ms.getLast hne] = ms :=
    List.dropLast_concat_getLast hne
  have hfrontlen : ms.dropLast.length = 10 := by
    rw [List.length_dropLast, hms]
  have hfold : b = ((MemoryBank.new (MemoryConfig.mk 10 decay thr (1/2))).storeAll
      ms.dropLast).store (ms.getLast hne) := by
    rw [hb]
    conv_lhs => rw [← hsplit]
    unfold MemoryBank.storeAll
    rw [List.foldl_append]
    rfl
  have hmid : ((MemoryBank.new (MemoryConfig.mk 10 decay thr (1/2))).storeAll
      ms.dropLast).memories.length = 10 := by
    rw [storeAll_length_of_le]
    · rw [hfrontlen]
      rfl
    · rw [hfrontlen]
      exact le_refl _
  have hmidcfg : ((MemoryBank.new (MemoryConfig.mk 10 decay thr (1/2))).storeAll
      ms.dropLast).config = MemoryConfig.mk 10 decay thr (1/2) := by
    rw [MemoryBank.storeAll_config]
    rfl
  have hcfg : b.config = MemoryConfig.mk 10 decay thr (1/2) := by
    rw [hb, MemoryBank.storeAll_config]
    rfl
  have hlen9 : b.memories.length = 9 := by
    rw [hfold, store_length_of_ge]
    · rw [hmidcfg]
      rfl
    · rw [hmidcfg, hmid]
    · rw [hmidcfg]
      show 1 ≤ 10
      omega
  have hOk : BankEntriesOk r c b := by
    rw [hb]
    refine storeAll_preserves_entriesOk r c ms _ ?_ hsh ?_
    · exact hd
    · intro e he
      exact absurd he (List.not_mem_nil e)
  have hthr : b.compressionThreshold = 5 := by
    unfold MemoryBank.compressionThreshold
    rw [hcfg]
    show (⌊((10 : ℕ) : ℝ) * (1/2 : ℝ)⌋).toNat = 5
    norm_num
    rfl
  have htne : b.memories.take 5 ≠ [] := by
    refine List.ne_nil_of_length_pos ?_
    rw [List.length_take, hlen9]
    norm_num
  have htOk : ∀ e ∈ b.memories.take 5, 0 < e.importance_score ∧
      e.representation.rows = r ∧ e.representation.cols = c :=
    fun e he => hOk e (List.take_subset _ _ he)
  have hcm : MemoryBank.compress_memories (b.memories.take 5) =
      .ok (Mat.ofFn r c fun i j =>
        ((b.memories.take 5).map fun e =>
          e.importance_score * e.representation.entry i j).sum /
          ((b.memories.take 5).map MemoryEntry.importance_score).sum) :=
    compress_memories_spec r c _ htne (fun e he => (htOk e he).2) fun e he => (htOk e he).1
  have hco : b.compress_old_memories =
      (.ok (), { b with
        memories := b.memories.drop 5
        compressed_memories := b.compressed_memories ++
          [Mat.ofFn r c fun i j =>
            ((b.memories.take 5).map fun e =>
              e.importance_score * e.representation.entry i j).sum /
              ((b.memories.take 5).map MemoryEntry.importance_score).sum] }) := by
    unfold MemoryBank.compress_old_memories
    rw [hthr]
    rw [if_neg (by rw [hlen9]; omega)]
    rw [if_neg (by simpa [List.isEmpty_iff] using htne)]
    rw [hcm]
  refine ⟨?_, ?_, ?_, ?_⟩
  · rw [hco]
  · rw [hco]
    show b.memories.length = (b.memories.drop 5).length + 5
    rw [List.length_drop, hlen9]
  · rw [hco]
  · rw [hco]

/-- Witness for `compress_after_eleven_stores`: eleven 1×1 zero matrices
stored into a bank with capacity 10, compression ratio 0.5 and decay 1. -/
theorem compress_after_eleven_stores_witness :
    (0 : ℝ) < 1 ∧
    (List.replicate 11 (Mat.zeros 1 1)).length = 11 ∧
    (∀ m ∈ List.replicate 11 (Mat.zeros 1 1), m.rows = 1 ∧ m.cols = 1) ∧
    (((MemoryBank.new (MemoryConfig.mk 10 1 0 (1/2))).storeAll
        (List.replicate 11 (Mat.zeros 1 1))).compress_old_memories).2.memories =
      ((MemoryBank.new (MemoryConfig.mk 10 1 0 (1/2))).storeAll
        (List.replicate 11 (Mat.zeros 1 1))).memories.drop 5 ∧
    (((MemoryBank.new (MemoryConfig.mk 10 1 0 (1/2))).storeAll
        (List.replicate 11 (Mat.zeros 1 1))).compress_old_memories).1 = .ok () := by
  have h1 : (0 : ℝ) < 1 := one_pos
  have h2 : (List.replicate 11 (Mat.zeros 1 1)).length = 11 := by
    rw [List.length_replicate]
  have h3 : ∀ m ∈ List.replicate 11 (Mat.zeros 1 1), m.rows = 1 ∧ m.cols = 1 := by
    intro m hm
    rw [List.eq_of_mem_replicate hm]
    exact ⟨rfl, rfl⟩
  have hmain := compress_after_eleven_stores 1 0 (List.replicate 11 (Mat.zeros 1 1)) 1 1
    ((MemoryBank.new (MemoryConfig.mk 10 1 0 (1/2))).storeAll
      (List.replicate 11 (Mat.zeros 1 1))) h1 h2 h3 rfl
  exact ⟨h1, h2, h3, hmain.1, hmain.2.2.2⟩

/-! ### Temporal attention -/

/-- Library-built matrices: entries vanish outside the shape. -/
def Mat.Clean (a : Mat) : Prop :=
  a = Mat.ofFn a.rows a.cols a.entry

theorem Mat.clean_ofFn (r c : ℕ) (f : ℕ → ℕ → ℝ) : (Mat.ofFn r c f).Clean := by
  unfold Mat.Clean
  show Mat.ofFn r c f = Mat.ofFn r c _
  exact Mat.ofFn_congr r c _ _ fun i j hi hj => by
    show f i j = if i < r ∧ j < c then f i j else 0
    rw [if_pos ⟨hi, hj⟩]

theorem Mat.map_clean (a : Mat) (f : ℝ → ℝ) : (a.map f).Clean :=
  Mat.clean_ofFn _ _ _

theorem Mat.mul_clean (a b : Mat) : (a.mul b).Clean :=
  Mat.clean_ofFn _ _ _

theorem Mat.clean_entry_zero (a : Mat) (ha : a.Clean) (i j : ℕ)
    (h : ¬(i < a.rows ∧ j < a.cols)) : a.entry i j = 0 := by
  conv_lhs => rw [ha]
  unfold Mat.ofFn
  exact if_neg h

theorem Mat.map_mul_entry (a : Mat) (ha : a.Clean) (w : ℝ) (i j : ℕ) :
    (a.map fun x => x * w).entry i j = a.entry i j * w := by
  unfold Mat.map Mat.ofFn
  simp only
  by_cases h : i < a.rows ∧ j < a.cols
  · rw [if_pos h]
  · rw [if_neg h, a.clean_entry_zero ha i j h, zero_mul]

theorem sdpaForward_ok_clean (q k v o : Mat) (h : sdpaForward q k v = .ok o) :
    o.Clean := by
  unfold sdpaForward at h
  rcases hsm : sdpaSoftmax ((q.mul k.transpose).map fun x =>
      x * (1 / Real.sqrt (q.cols : ℝ))) with e | w
  · rw [hsm] at h
    exact Except.noConfusion h
  · rw [hsm] at h
    have : (w.mul v) = o := Except.ok.inj h
    rw [← this]
    exact Mat.mul_clean w v

theorem computeTemporalWeight_eq_pow (ta : TemporalAttention) (d : ℕ) :
    ta.computeTemporalWeight d = ta.decay_factor ^ d := by
  unfold TemporalAttention.computeTemporalWeight
  split
  · next h => rw [h, pow_zero]
  · rfl

theorem taLoop_spec (ta : TemporalAttention) (q : Mat) (F : (Mat × Mat) × ℕ → Mat) :
    ∀ L : List ((Mat × Mat) × ℕ),
      (∀ t ∈ L.filter (fun t => decide (¬ t.2 > ta.max_temporal_distance)),
        sdpaForward q t.1.1 t.1.2 = .ok (F t)) →
      ta.taLoop q L =
        .ok ((L.filter (fun t => decide (¬ t.2 > ta.max_temporal_distance))).map
          fun t => (F t).map fun x => x * ta.computeTemporalWeight t.2) := by
  intro L
  induction L with
  | nil => intro _; rfl
  | cons t rest ih =>
    intro hF
    obtain ⟨⟨k, v⟩, d⟩ := t
    by_cases hd : d > ta.max_temporal_distance
    · have hskip : ta.taLoop q (((k, v), d) :: rest) = ta.taLoop q rest := by
        show (if d > ta.max_temporal_distance then ta.taLoop q rest
          else match sdpaForward q k v with
            | .error e => .error e
            | .ok attention_output =>
              match ta.taLoop q rest with
              | .error e => .error e
              | .ok outs =>
                .ok ((attention_output.map fun x =>
                  x * ta.computeTemporalWeight d) :: outs)) = _
        rw [if_pos hd]
      have hfilter : (((k, v), d) :: rest).filter
          (fun t => decide (¬ t.2 > ta.max_temporal_distance)) =
          rest.filter (fun t => decide (¬ t.2 > ta.max_temporal_distance)) := by
        rw [List.filter_cons]
        simp only [decide_eq_true_eq]
        rw [if_neg (by simpa using hd)]
      rw [hskip, hfilter]
      refine ih ?_
      intro t ht
      refine hF t ?_
      rw [hfilter]
      exact ht
    · have hfilter : (((k, v), d) :: rest).filter
          (fun t => decide (¬ t.2 > ta.max_temporal_distance)) =
          ((k, v), d) :: rest.filter (fun t => decide (¬ t.2 > ta.max_temporal_distance)) := by
        rw [List.filter_cons]
        simp only [decide_eq_true_eq]
        rw [if_pos (by simpa using hd)]
      have hhead : sdpaForward q k v = .ok (F ((k, v), d)) := by
        have := hF ((k, v), d)
        rw [hfilter] at this
        exact this (List.mem_cons_self _ _)
      have htail : ta.taLoop q rest =
          .ok ((rest.filter (fun t => decide (¬ t.2 > ta.max_temporal_distance))).map
            fun t => (F t).map fun x => x * ta.computeTemporalWeight t.2) := by
        refine ih ?_
        intro t ht
        refine hF t ?_
        rw [hfilter]
        exact List.mem_cons_of_mem _ ht
      show (if d > ta.max_temporal_distance then ta.taLoop q rest
        else match sdpaForward q k v with
          | .error e => .error e
          | .ok attention_output =>
            match ta.taLoop q rest with
            | .error e => .error e
            | .ok outs =>
              .ok ((attention_output.map fun x =>
                x * ta.computeTemporalWeight d) :: outs)) = _
      rw [if_neg hd, hhead, htail, hfilter]
      rfl

theorem foldl_add_spec (l : List Mat) :
    ∀ A : Mat, A.Clean →
      l.foldl Mat.add A = Mat.ofFn A.rows A.cols
        fun i j => A.entry i j + (l.map fun o => o.entry i j).sum := by
  induction l with
  | nil =>
    intro A hA
    show A = _
    conv_lhs => rw [hA]
    exact Mat.ofFn_congr _ _ _ _ fun i j _ _ => by simp
  | cons o rest ih =>
    intro A hA
    have hstep : (o :: rest).foldl Mat.add A = rest.foldl Mat.add (A.add o) := rfl
    rw [hstep, ih (A.add o) (Mat.clean_ofFn _ _ _)]
    show Mat.ofFn A.rows A.cols _ = Mat.ofFn A.rows A.cols _
    refine Mat.ofFn_congr _ _ _ _ fun i j hi hj => ?_
    show (A.add o).entry i j + _ = _
    unfold Mat.add Mat.ofFn
    simp only
    rw [if_pos ⟨hi, hj⟩]
    simp only [List.map_cons, List.sum_cons]
    ring

theorem combineTemporalOutputs_spec (outs : List Mat) (hne : outs ≠ [])
    (hclean : (outs.head hne).Clean) :
    TemporalAttention.combineTemporalOutputs outs =
      .ok (Mat.ofFn (outs.head hne).rows (outs.head hne).cols
        fun i j => (outs.map fun o => o.entry i j).sum / (outs.length : ℝ)) := by
  match outs, hne, hclean with
  | o :: rest, _, hclean =>
    show Except.ok ((rest.foldl Mat.add o).map fun x => x / ((o :: rest).length : ℝ)) = _
    rw [foldl_add_spec rest o hclean]
    congr 1
    unfold Mat.map
    show Mat.ofFn (Mat.ofFn o.rows o.cols _).rows (Mat.ofFn o.rows o.cols _).cols _ = _
    show Mat.ofFn o.rows o.cols _ = _
    refine Mat.ofFn_congr _ _ _ _ fun i j hi hj => ?_
    show (Mat.ofFn o.rows o.cols fun i2 j2 =>
        o.entry i2 j2 + (rest.map fun o2 => o2.entry i2 j2).sum).entry i j /
      ((o :: rest).length : ℝ) = _
    unfold Mat.ofFn
    simp only
    rw [if_pos ⟨hi, hj⟩]
    simp only [List.map_cons, List.sum_cons]

/-- C6: `TemporalAttention::forward` with equal-length lists: triples with
distance beyond `max_temporal_distance` are excluded; each kept triple's base
attention output is scaled elementwise by `decay_factor ^ distance` (so weight
`1` at distance `0`); the result is the unweighted arithmetic mean of the kept
scaled outputs; and when nothing survives the filter the result is a zero
matrix shaped like the query. -/
theorem temporal_attention_forward_spec (ta : TemporalAttention) (q : Mat)
    (ks vs : List Mat) (ds : List ℕ) (F : (Mat × Mat) × ℕ → Mat)
    (hlen1 : ks.length = vs.length) (hlen2 : ks.length = ds.length)
    (hF : ∀ t ∈ ta.keptTriples ks vs ds, sdpaForward q t.1.1 t.1.2 = .ok (F t)) :
    (ta.keptTriples ks vs ds = [] →
      ta.forward q ks vs ds = .ok (Mat.zeros q.rows q.cols)) ∧
    ∀ h : ta.keptTriples ks vs ds ≠ [],
      ta.forward q ks vs ds =
        .ok (Mat.ofFn (F ((ta.keptTriples ks vs ds).head h)).rows
          (F ((ta.keptTriples ks vs ds).head h)).cols
          fun i j =>
            ((ta.keptTriples ks vs ds).map fun t =>
              ta.decay_factor ^ t.2 * (F t).entry i j).sum /
              ((ta.keptTriples ks vs ds).length : ℝ)) := by
  have hloop : ta.taLoop q ((ks.zip vs).zip ds) =
      .ok ((ta.keptTriples ks vs ds).map
        fun t => (F t).map fun x => x * ta.computeTemporalWeight t.2) :=
    taLoop_spec ta q F _ hF
  have hcond : ¬(ks.length ≠ vs.length ∨ ks.length ≠ ds.length) := by
    push_neg
    exact ⟨hlen1, hlen2⟩
  have hfwd : ta.forward q ks vs ds =
      if ((ta.keptTriples ks vs ds).map
          fun t => (F t).map fun x => x * ta.computeTemporalWeight t.2).isEmpty then
        .ok (Mat.zeros q.rows q.cols)
      else
        TemporalAttention.combineTemporalOutputs
          ((ta.keptTriples ks vs ds).map
            fun t => (F t).map fun x => x * ta.computeTemporalWeight t.2) := by
    unfold TemporalAttention.forward
    rw [if_neg hcond, hloop]
  constructor
  · intro hempty
    rw [hfwd, hempty]
    rfl
  · intro hne
    have hnem : ((ta.keptTriples ks vs ds).map
        fun t => (F t).map fun x => x * ta.computeTemporalWeight t.2) ≠ [] := by
      simpa using hne
    have hisem : ((ta.keptTriples ks vs ds).map
        fun t => (F t).map fun x => x * ta.computeTemporalWeight t.2).isEmpty = false := by
      rw [List.isEmpty_eq_false_iff_exists_mem]
      obtain ⟨t, ht⟩ := List.exists_mem_of_ne_nil _ hnem
      exact ⟨t, ht⟩
    rw [hfwd, hisem]
    simp only [Bool.false_eq_true, if_false]
    have hheadmem : (ta.keptTriples ks vs ds).head hne ∈ ta.keptTriples ks vs ds :=
      List.head_mem hne
    have hheadclean : (((ta.keptTriples ks vs ds).map
        fun t => (F t).map fun x => x * ta.computeTemporalWeight t.2).head hnem).Clean := by
      rw [List.head_map]
      exact Mat.map_clean _ _
    rw [combineTemporalOutputs_spec _ hnem hheadclean]
    congr 1
    have hhead : ((ta.keptTriples ks vs ds).map
        fun t => (F t).map fun x => x * ta.computeTemporalWeight t.2).head hnem =
        (F ((ta.keptTriples ks vs ds).head hne)).map
          fun x => x * ta.computeTemporalWeight ((ta.keptTriples ks vs ds).head hne).2 := by
      rw [List.head_map]
    rw [hhead]
    show Mat.ofFn (F ((ta.keptTriples ks vs ds).head hne)).rows
      (F ((ta.keptTriples ks vs ds).head hne)).cols _ = _
    refine Mat.ofFn_congr _ _ _ _ fun i j hi hj => ?_
    rw [List.map_map, List.length_map]
    congr 1
    refine congrArg List.sum (List.map_congr_left fun t ht => ?_)
    show ((F t).map fun x => x * ta.computeTemporalWeight t.2).entry i j = _
    have hclean : (F t).Clean := sdpaForward_ok_clean q t.1.1 t.1.2 (F t) (hF t ht)
    rw [Mat.map_mul_entry (F t) hclean, computeTemporalWeight_eq_pow]
    ring

/-- Witness for `temporal_attention_forward_spec`: one triple at distance 5
with cutoff 3 — nothing survives the filter, so the result is the zero matrix
shaped like the query. -/
theorem temporal_attention_forward_spec_witness :
    ([Mat.zeros 1 1] : List Mat).length = ([Mat.zeros 1 1] : List Mat).length ∧
    ([Mat.zeros 1 1] : List Mat).length = ([5] : List ℕ).length ∧
    (∀ t ∈ (TemporalAttention.mk 0 (Mat.zeros 1 1) (1/2) 3).keptTriples
        [Mat.zeros 1 1] [Mat.zeros 1 1] [5],
      sdpaForward (Mat.zeros 1 1) t.1.1 t.1.2 = .ok (Mat.zeros 1 1)) ∧
    ((TemporalAttention.mk 0 (Mat.zeros 1 1) (1/2) 3).keptTriples
        [Mat.zeros 1 1] [Mat.zeros 1 1] [5] = [] →
      (TemporalAttention.mk 0 (Mat.zeros 1 1) (1/2) 3).forward (Mat.zeros 1 1)
        [Mat.zeros 1 1] [Mat.zeros 1 1] [5] =
        .ok (Mat.zeros (Mat.zeros 1 1).rows (Mat.zeros 1 1).cols)) ∧
    (TemporalAttention.mk 0 (Mat.zeros 1 1) (1/2) 3).forward (Mat.zeros 1 1)
      [Mat.zeros 1 1] [Mat.zeros 1 1] [5] =
      .ok (Mat.zeros (Mat.zeros 1 1).rows (Mat.zeros 1 1).cols) := by
  have hkept : (TemporalAttention.mk 0 (Mat.zeros 1 1) (1/2) 3).keptTriples
      [Mat.zeros 1 1] [Mat.zeros 1 1] [5] = [] := by
    unfold TemporalAttention.keptTriples
    rfl
  have hF : ∀ t ∈ (TemporalAttention.mk 0 (Mat.zeros 1 1) (1/2) 3).keptTriples
      [Mat.zeros 1 1] [Mat.zeros 1 1] [5],
      sdpaForward (Mat.zeros 1 1) t.1.1 t.1.2 = .ok (Mat.zeros 1 1) := by
    rw [hkept]
    intro t ht
    exact absurd ht (List.not_mem_nil t)
  have hmain := temporal_attention_forward_spec
    (TemporalAttention.mk 0 (Mat.zeros 1 1) (1/2) 3) (Mat.zeros 1 1)
    [Mat.zeros 1 1] [Mat.zeros 1 1] [5] (fun _ => Mat.zeros 1 1) rfl rfl hF
  exact ⟨rfl, rfl, hF, hmain.1, hmain.1 hkept⟩

/-! ### Temporal encoder -/

theorem contextStep_weights_indep (te : TemporalEncoder) (W base : Mat)
    (prev : List Mat) (pos : List ℕ) :
    ({ te with memory_integration_weights := W } : TemporalEncoder).contextStep
        base prev pos =
      ((te.contextStep base prev pos).1,
       { (te.contextStep base prev pos).2 with memory_integration_weights := W }) := by
  cases prev with
  | cons p ps => rfl
  | nil =>
    show ({ te with memory_integration_weights := W } :
      TemporalEncoder).retrieve_memory_context base =
      ((te.retrieve_memory_context base).1,
       { (te.retrieve_memory_context base).2 with memory_integration_weights := W })
    unfold TemporalEncoder.retrieve_memory_context
    have hmb : ({ te with memory_integration_weights := W } :
        TemporalEncoder).memory_bank = te.memory_bank := rfl
    rw [hmb]
    rcases (te.memory_bank.retrieve base 5).1 with e | mems
    · rfl
    · dsimp only
      by_cases hm : mems.isEmpty
      · simp only [if_pos hm]
      · simp only [if_neg hm]

/-- C9: when the computed temporal context has norm below `1e-8`,
`forward_with_continuity` returns exactly the base encoder output, stores the
pooled base output in the memory bank by exactly one `store` call, and the
learned integration projection is never applied: the returned matrix and the
resulting memory bank are independent of `memory_integration_weights`. -/
theorem forward_with_continuity_negligible_context
    (te : TemporalEncoder) (ids : List ℕ) (mask : Option Mask)
    (prev : List Mat) (pos : List ℕ) (base ctx : Mat)
    (hbase : te.base_encoder ids mask = .ok base)
    (hctx : (te.contextStep base prev pos).1 = .ok ctx)
    (hnorm : ctx.norm < 1e-8) :
    (te.forward_with_continuity ids mask prev pos).1 = .ok base ∧
    (te.forward_with_continuity ids mask prev pos).2.memory_bank =
      ((te.contextStep base prev pos).2).memory_bank.store (globalAveragePool base) ∧
    ∀ W : Mat,
      (({ te with memory_integration_weights := W } :
          TemporalEncoder).forward_with_continuity ids mask prev pos).1 =
        (te.forward_with_continuity ids mask prev pos).1 ∧
      (({ te with memory_integration_weights := W } :
          TemporalEncoder).forward_with_continuity ids mask prev pos).2.memory_bank =
        (te.forward_with_continuity ids mask prev pos).2.memory_bank := by
  have hint : ∀ te2 : TemporalEncoder, te2.integrate_temporal_context base ctx = .ok base := by
    intro te2
    unfold TemporalEncoder.integrate_temporal_context
    rw [if_pos hnorm]
  rcases hC : te.contextStep base prev pos with ⟨res, C2⟩
  have hres : res = .ok ctx := by
    rw [hC] at hctx
    exact hctx
  subst hres
  have hfwc : te.forward_with_continuity ids mask prev pos =
      (.ok base, C2.store_in_memory base) := by
    unfold TemporalEncoder.forward_with_continuity
    rw [hbase]
    dsimp only
    rw [hC]
    dsimp only
    rw [hint]
  have hbaseW : ∀ W : Mat, ({ te with memory_integration_weights := W } :
      TemporalEncoder).base_encoder ids mask = .ok base := fun W => hbase
  have hfwcW : ∀ W : Mat,
      ({ te with memory_integration_weights := W } :
        TemporalEncoder).forward_with_continuity ids mask prev pos =
      (.ok base,
       ({ C2 with memory_integration_weights := W }).store_in_memory base) := by
    intro W
    unfold TemporalEncoder.forward_with_continuity
    rw [hbaseW W]
    dsimp only
    rw [contextStep_weights_indep te W base prev pos, hC]
    dsimp only
    rw [hint]
  refine ⟨by rw [hfwc], ?_, ?_⟩
  · rw [hfwc]
    rfl
  · intro W
    rw [hfwc, hfwcW W]
    exact ⟨rfl, rfl⟩

/-- Witness for `forward_with_continuity_negligible_context`: an encoder over
an empty memory bank with no previous states; the retrieved context is the
zero matrix, whose norm `0` is below `1e-8`. -/
theorem forward_with_continuity_negligible_context_witness :
    (TemporalEncoder.mk (fun _ _ => .ok (Mat.zeros 1 1))
        (TemporalAttention.mk 0 (Mat.zeros 1 1) (1/2) 3)
        (MemoryBank.new (MemoryConfig.mk 10 1 0 (1/2)))
        (LayerNorm.mk (Mat.zeros 1 1) (Mat.zeros 1 1) (1/1000000))
        (Mat.zeros 1 1) 1).base_encoder [] none = .ok (Mat.zeros 1 1) ∧
    ((TemporalEncoder.mk (fun _ _ => .ok (Mat.zeros 1 1))
        (TemporalAttention.mk 0 (Mat.zeros 1 1) (1/2) 3)
        (MemoryBank.new (MemoryConfig.mk 10 1 0 (1/2)))
        (LayerNorm.mk (Mat.zeros 1 1) (Mat.zeros 1 1) (1/1000000))
        (Mat.zeros 1 1) 1).contextStep (Mat.zeros 1 1) [] []).1 =
      .ok (Mat.zeros 1 1) ∧
    (Mat.zeros 1 1).norm < 1e-8 ∧
    ((TemporalEncoder.mk (fun _ _ => .ok (Mat.zeros 1 1))
        (TemporalAttention.mk 0 (Mat.zeros 1 1) (1/2) 3)
        (MemoryBank.new (MemoryConfig.mk 10 1 0 (1/2)))
        (LayerNorm.mk (Mat.zeros 1 1) (Mat.zeros 1 1) (1/1000000))
        (Mat.zeros 1 1) 1).forward_with_continuity [] none [] []).1 =
      .ok (Mat.zeros 1 1) := by
  have hnorm : (Mat.zeros 1 1).norm < 1e-8 := by
    have hz : (Mat.zeros 1 1).norm = 0 := by
      unfold Mat.norm Mat.dot
      have hz2 : ∀ i j : ℕ, (Mat.zeros 1 1).entry i j = 0 := by
        intro i j
        unfold Mat.zeros Mat.ofFn
        simp
      simp only [hz2, mul_zero, Finset.sum_const_zero]
      exact Real.sqrt_zero
    rw [hz]
    norm_num
  have hctx : ((TemporalEncoder.mk (fun _ _ => .ok (Mat.zeros 1 1))
      (TemporalAttention.mk 0 (Mat.zeros 1 1) (1/2) 3)
      (MemoryBank.new (MemoryConfig.mk 10 1 0 (1/2)))
      (LayerNorm.mk (Mat.zeros 1 1) (Mat.zeros 1 1) (1/1000000))
      (Mat.zeros 1 1) 1).contextStep (Mat.zeros 1 1) [] []).1 =
      .ok (Mat.zeros 1 1) := rfl
  have hmain := forward_with_continuity_negligible_context
    (TemporalEncoder.mk (fun _ _ => .ok (Mat.zeros 1 1))
      (TemporalAttention.mk 0 (Mat.zeros 1 1) (1/2) 3)
      (MemoryBank.new (MemoryConfig.mk 10 1 0 (1/2)))
      (LayerNorm.mk (Mat.zeros 1 1) (Mat.zeros 1 1) (1/1000000))
      (Mat.zeros 1 1) 1) [] none [] [] (Mat.zeros 1 1) (Mat.zeros 1 1)
    rfl hctx hnorm
  exact ⟨rfl, hctx, hnorm, hmain.1⟩

/-! ### Reachable bank states and the timestamp invariant -/

/-- Bank states reachable through the public operations. -/
inductive Reachable : MemoryBank → Prop
  | new (cfg : MemoryConfig) : Reachable (MemoryBank.new cfg)
  | store (b : MemoryBank) (m : Mat) : Reachable b → Reachable (b.store m)
  | retrieve (b : MemoryBank) (q : Mat) (k : ℕ) : Reachable b →
      Reachable (b.retrieve q k).2
  | getContext (b : MemoryBank) (q : Mat) (d : ℕ) : Reachable b →
      Reachable (b.get_temporal_context q d).2
  | compress (b : MemoryBank) : Reachable b → Reachable (b.compress_old_memories).2
  | clear (b : MemoryBank) : Reachable b → Reachable b.clear

theorem keepIdxNot_sublist (S : List ℕ) (l : List α) : (keepIdxNot S l).Sublist l := by
  unfold keepIdxNot
  have h2 := (List.filter_sublist (l := l.enum) (p := fun p => decide (p.1 ∉ S))).map Prod.snd
  rw [show l.enum = l.enumFrom 0 from rfl, List.enumFrom_map_snd] at h2
  exact h2

theorem computeSimilarities_length (q : Mat) :
    ∀ (ms : List MemoryEntry) (sims : List ℝ),
      MemoryBank.computeSimilarities q ms = .ok sims → sims.length = ms.length := by
  intro ms
  induction ms with
  | nil =>
    intro sims h
    have h2 : (Except.ok [] : Except String (List ℝ)) = .ok sims := h
    rw [← Except.ok.inj h2]
    rfl
  | cons m rest ih =>
    intro sims h
    unfold MemoryBank.computeSimilarities at h
    rcases hc : MemoryBank.cosine_similarity q m.representation with e | s
    · rw [hc] at h
      exact Except.noConfusion h
    · rw [hc] at h
      rcases hr : MemoryBank.computeSimilarities q rest with e2 | ss
      · rw [hr] at h
        exact Except.noConfusion h
      · rw [hr] at h
        rw [← Except.ok.inj h]
        simp only [List.length_cons]
        rw [ih ss hr]

theorem retrieve_preserves_timestamps (b : MemoryBank) (q : Mat) (k : ℕ) :
    (b.retrieve q k).2.memories.map MemoryEntry.timestamp =
      b.memories.map MemoryEntry.timestamp ∧
    (b.retrieve q k).2.current_timestamp = b.current_timestamp := by
  rcases hcs : MemoryBank.computeSimilarities q b.memories with e | sims
  · have hretr : b.retrieve q k = (.error e, b) := by
      unfold MemoryBank.retrieve
      rw [hcs]
    rw [hretr]
    exact ⟨rfl, rfl⟩
  · have hlen := computeSimilarities_length q b.memories sims hcs
    have hvalid : ∀ i ∈ retrieveSelected sims k, i < b.memories.length := by
      intro i hi
      have := retrieveSelected_valid sims k i hi
      omega
    obtain ⟨hflen, hfget, _⟩ :=
      retrieveFold_spec b.config.memory_decay_factor b.current_timestamp
        (retrieveSelected sims k) b.memories [] (retrieveSelected_nodup sims k) hvalid
    have hretr : b.retrieve q k =
        (.ok ((retrieveSelected sims k).foldl
            (retrieveStep b.config.memory_decay_factor b.current_timestamp)
            (b.memories, [])).2,
          { b with
            memories := ((retrieveSelected sims k).foldl
              (retrieveStep b.config.memory_decay_factor b.current_timestamp)
              (b.memories, [])).1 }) := by
      unfold MemoryBank.retrieve
      rw [hcs]
    rw [hretr]
    refine ⟨?_, rfl⟩
    refine List.ext_getElem ?_ ?_
    · rw [List.length_map, List.length_map, hflen]
    · intro j h1 h2
      rw [List.getElem_map, List.getElem_map]
      have hj : j < b.memories.length := by
        rw [List.length_map] at h2
        exact h2
      have hj1 : j < ((retrieveSelected sims k).foldl
          (retrieveStep b.config.memory_decay_factor b.current_timestamp)
          (b.memories, [])).1.length := by
        rw [hflen]
        exact hj
      rw [show ((retrieveSelected sims k).foldl
          (retrieveStep b.config.memory_decay_factor b.current_timestamp)
          (b.memories, [])).1[j] = ((retrieveSelected sims k).foldl
          (retrieveStep b.config.memory_decay_factor b.current_timestamp)
          (b.memories, [])).1.getD j defaultEntry from (List.getD_eq_getElem _ _ hj1).symm,
        show b.memories[j] = b.memories.getD j defaultEntry from
          (List.getD_eq_getElem _ _ hj).symm]
      by_cases hjS : j ∈ retrieveSelected sims k
      · rw [(hfget j).1 hjS]
        rfl
      · rw [(hfget j).2 hjS]

theorem compress_old_memories_cases (b : MemoryBank) :
    ((b.compress_old_memories).2.memories = b.memories ∨
      (b.compress_old_memories).2.memories = b.memories.drop b.compressionThreshold) ∧
    (b.compress_old_memories).2.current_timestamp = b.current_timestamp := by
  unfold MemoryBank.compress_old_memories
  split_ifs with h1 h2
  · exact ⟨Or.inl rfl, rfl⟩
  · exact ⟨Or.inr rfl, rfl⟩
  · rcases hcm : MemoryBank.compress_memories (b.memories.take b.compressionThreshold)
      with e | c
    · exact ⟨Or.inr rfl, rfl⟩
    · exact ⟨Or.inr rfl, rfl⟩

/-- C10: in every bank state reachable through the public operations, every
live entry's timestamp lies between `1` and `current_timestamp`, and the
timestamps strictly increase from the front (oldest) to the back (newest) of
the queue.  In particular the unsigned age `current_timestamp - timestamp`
computed by `get_temporal_context` and `update_importance` never underflows. -/
theorem reachable_timestamp_invariant :
    ∀ b : MemoryBank, Reachable b →
      (∀ e ∈ b.memories, 1 ≤ e.timestamp ∧ e.timestamp ≤ b.current_timestamp) ∧
      (b.memories.map MemoryEntry.timestamp).Pairwise (· < ·) := by
  intro b h
  induction h with
  | new cfg => exact ⟨fun e he => absurd he (List.not_mem_nil e), List.Pairwise.nil⟩
  | clear b2 _ _ => exact ⟨fun e he => absurd he (List.not_mem_nil e), List.Pairwise.nil⟩
  | getContext b2 q d _ ih => exact ih
  | retrieve b2 q k _ ih =>
    obtain ⟨hts, hct⟩ := retrieve_preserves_timestamps b2 q k
    constructor
    · intro e he
      have hmem : e.timestamp ∈ (b2.retrieve q k).2.memories.map MemoryEntry.timestamp :=
        List.mem_map_of_mem _ he
      rw [hts] at hmem
      obtain ⟨e0, he0, hteq⟩ := List.mem_map.mp hmem
      rw [hct, ← hteq]
      exact ih.1 e0 he0
    · rw [hts]
      exact ih.2
  | compress b2 _ ih =>
    obtain ⟨hmem, hct⟩ := compress_old_memories_cases b2
    constructor
    · intro e he
      rw [hct]
      rcases hmem with hm | hm
      · rw [hm] at he
        exact ih.1 e he
      · rw [hm] at he
        exact ih.1 e (List.drop_subset _ _ he)
    · rcases hmem with hm | hm
      · rw [hm]
        exact ih.2
      · rw [hm, List.map_drop]
        exact List.Pairwise.sublist (List.drop_sublist _ _) ih.2
  | store b2 m _ ih =>
    have hpush_mem : ∀ e ∈ (b2.storePushed m).memories,
        1 ≤ e.timestamp ∧ e.timestamp ≤ b2.current_timestamp + 1 := by
      intro e he
      unfold MemoryBank.storePushed at he
      simp only [List.mem_append, List.mem_singleton] at he
      rcases he with he | he
      · obtain ⟨ha, hb⟩ := ih.1 e he
        exact ⟨ha, by omega⟩
      · subst he
        refine ⟨?_, le_refl _⟩
        show 1 ≤ b2.current_timestamp + 1
        omega
    have hpush_pair : ((b2.storePushed m).memories.map MemoryEntry.timestamp).Pairwise
        (· < ·) := by
      unfold MemoryBank.storePushed
      simp only
      rw [List.map_append]
      refine List.pairwise_append.mpr ⟨ih.2, List.pairwise_singleton _ _, ?_⟩
      intro x hx y hy
      simp only [List.map_cons, List.map_nil, List.mem_singleton] at hy
      obtain ⟨e0, he0, hx0⟩ := List.mem_map.mp hx
      have := (ih.1 e0 he0).2
      rw [hy, ← hx0]
      show e0.timestamp < b2.current_timestamp + 1
      omega
    unfold MemoryBank.store
    split
    · constructor
      · intro e he
        have hkeep := (b2.storePushed m).evict_memories_eq_keepIdxNot
        rw [hkeep] at he
        have he2 := keepIdxNot_subset _ _ e he
        unfold MemoryBank.evictUpdated at he2
        obtain ⟨e0, he0, heq⟩ := List.mem_map.mp he2
        have hb := hpush_mem e0 he0
        subst heq
        exact hb
      · show (((b2.storePushed m).evict_memories).memories.map
          MemoryEntry.timestamp).Pairwise (· < ·)
        rw [(b2.storePushed m).evict_memories_eq_keepIdxNot]
        have hsub := (keepIdxNot_sublist (b2.storePushed m).evictIndices
          (b2.storePushed m).evictUpdated).map MemoryEntry.timestamp
        refine List.Pairwise.sublist hsub ?_
        have hts_updated : (b2.storePushed m).evictUpdated.map MemoryEntry.timestamp =
            (b2.storePushed m).memories.map MemoryEntry.timestamp := by
          unfold MemoryBank.evictUpdated
          rw [List.map_map]
          rfl
        rw [hts_updated]
        exact hpush_pair
    · exact ⟨hpush_mem, hpush_pair⟩

/-- Witness for `reachable_timestamp_invariant`: the freshly constructed
default bank is reachable. -/
theorem reachable_timestamp_invariant_witness :
    Reachable (MemoryBank.new MemoryConfig.default) ∧
    ((∀ e ∈ (MemoryBank.new MemoryConfig.default).memories,
        1 ≤ e.timestamp ∧
          e.timestamp ≤ (MemoryBank.new MemoryConfig.default).current_timestamp) ∧
      ((MemoryBank.new MemoryConfig.default).memories.map
        MemoryEntry.timestamp).Pairwise (· < ·)) :=
  ⟨Reachable.new MemoryConfig.default,
    reachable_timestamp_invariant (MemoryBank.new MemoryConfig.default)
      (Reachable.new MemoryConfig.default)⟩

end
